import Mathlib

/-!
Verification of the analysis core of a Lua stub-generation tool.

This file gives a shallow embedding, in Lean 4, of the type-resolution,
usage-narrowing, module-lookup, analyzer-driver and finalization code of
the repository, translated function by function from the TypeScript
source (`TypeResolver`, `AnalysisContext`, `Analyzer`, `AnalysisFinalizer`,
`isEmptyClass`), together with theorems settling the specification claims
about that code.

Conventions used by the embedding:
* JavaScript `Set<string>` values are modelled by `TySet := List String`
  kept in insertion order; `addT` mirrors `Set.add` (no-op on duplicates).
* JavaScript `Map` values are modelled by association lists in insertion
  order; `setSeen` mirrors `Map.set` (in-place update keeps position).
* The TypeScript resolver memoizes on the *object identity* of
  `LuaExpressionInfo` values.  Stored infos (the ones held in the
  context's definition lists, which are the only infos that can be
  reached twice) are given a numeric `tag`; wrapper infos built on the
  fly (`{ expression: ..., index: ... }`) carry `tag = none` and are
  never entered into nor found in the memo map, exactly like fresh
  objects in the source.
* The resolver's recursion is not structurally bounded (and, as proved
  below, genuinely fails to terminate on some inputs), so the whole
  family of mutually recursive functions is written with an explicit
  fuel parameter; `none` means the computation did not finish within
  the given fuel.  A function of the source terminates on an input iff
  the fueled embedding returns `some` for every sufficiently large fuel.
-/

namespace PZ

/-- Insertion-ordered string set, the model of a JS `Set<string>`. -/
abbrev TySet := List String

/-- `Set.add`: append unless already present. -/
def addT (l : TySet) (x : String) : TySet :=
  if x ∈ l then l else l ++ [x]

/-- `r.forEach((x) => l.add(x))`: add all elements of `r` to `l` in order. -/
def unionT (l : TySet) (r : TySet) : TySet :=
  r.foldl addT l

/-- Copy a list into a fresh JS set (`new Set(r)`): dedupe keeping first occurrences. -/
def dedupT (r : TySet) : TySet :=
  unionT [] r

/-- Table keys of a table-constructor field, from the `TableKey` union type. -/
inductive TableKeyE where
  | auto (idx : Nat)
  | stringK (name : String)
  | literalK (luaType : String) (lit : String) (name : Option String)
  | exprK (keyIdx : Nat)
  deriving DecidableEq, Repr

/--
`LuaExpression`, the tagged union of expression shapes from the source's
`types` module.  Literal table fields are flattened to key/value pairs
(`expression`-typed keys are referenced by index, which finalization
claims never inspect structurally).
-/
inductive LuaExpression where
  | reference (id : String)
  | requireE (modName : String)
  | literal (luaType : String) (lit : Option String) (tableId : Option String)
      (functionId : Option String) (fields : List (TableKeyE × LuaExpression))
  | index (base idx : LuaExpression)
  | member (base : LuaExpression) (mem : String) (indexer : String)
  | operation (operator : String) (arguments : List LuaExpression)
  deriving Repr

/-- Plain literal constructor (no table/function payload). -/
def mkLit (luaType : String) (lit : Option String) : LuaExpression :=
  .literal luaType lit none none []

mutual

/-- Structural equality of expressions (JS `Map` keys are compared by identity; the usage map is modelled with structural keys, see `lookupUsage`). -/
def beqExpr : LuaExpression → LuaExpression → Bool
  | .reference a, .reference b => a == b
  | .requireE a, .requireE b => a == b
  | .literal lt l t f fs, .literal lt' l' t' f' fs' =>
    lt == lt' && l == l' && t == t' && f == f' && beqFields fs fs'
  | .index b i, .index b' i' => beqExpr b b' && beqExpr i i'
  | .member b m ix, .member b' m' ix' => beqExpr b b' && m == m' && ix == ix'
  | .operation op args, .operation op' args' => op == op' && beqList args args'
  | _, _ => false

/-- Pointwise `beqExpr` on lists. -/
def beqList : List LuaExpression → List LuaExpression → Bool
  | [], [] => true
  | a :: as, b :: bs => beqExpr a b && beqList as bs
  | _, _ => false

/-- Pointwise equality on table-field lists. -/
def beqFields : List (TableKeyE × LuaExpression) → List (TableKeyE × LuaExpression) → Bool
  | [], [] => true
  | (k, v) :: as, (k', v') :: bs => k == k' && beqExpr v v' && beqFields as bs
  | _, _ => false

end

instance : BEq LuaExpression := ⟨beqExpr⟩

/--
`LuaExpressionInfo`.  `tag` models the object identity of infos stored in
the context (`seen` memoization is identity-keyed in the source); wrapper
infos created inline carry `tag = none`.
-/
structure ExprInfo where
  expression : LuaExpression
  index : Option Nat := none
  tag : Option Nat := none
  isInst : Bool := false
  fromLiteral : Bool := false
  functionLevel : Bool := false
  definingModule : Option String := none

/-- Wrapper info `{ expression: e }`. -/
def mkInfo (e : LuaExpression) : ExprInfo := { expression := e }

/-- Wrapper info `{ expression: e, index: i }`. -/
def mkInfoIdx (e : LuaExpression) (i : Option Nat) : ExprInfo :=
  { expression := e, index := i }

/-- `FunctionInfo` record of the context (the fields the resolver and finalizer read). -/
structure FunctionInfoR where
  parameters : List String := []
  parameterNames : List String := []
  parameterTypes : List (Option TySet) := []
  returnTypes : List TySet := []
  returnExpressions : List (List LuaExpression) := []
  identifierExpression : Option LuaExpression := none
  isConstructor : Bool := false
  deriving Inhabited

/-- `TableInfo` record of the context (the fields the resolver and finalizer read). -/
structure TableInfoR where
  definitions : List (String × List ExprInfo) := []
  className : Option String := none
  emitAsTable : Bool := false
  deriving Inhabited

/-- One slot of a module's `returns` vector. -/
structure ReturnInfoR where
  types : TySet := []
  deriving Inhabited

/-- The part of a `ResolvedModule` the resolver reads. -/
structure ResolvedModuleR where
  returns : List ReturnInfoR := []
  deriving Inhabited

/-- The analysis context state read by the resolver and finalizer. -/
structure Ctx where
  definitions : List (String × List ExprInfo) := []
  tables : List (String × TableInfoR) := []
  funcs : List (String × FunctionInfoR) := []
  paramToFunc : List (String × String) := []
  modules : List (String × ResolvedModuleR) := []
  aliasMap : List (String × List String) := []
  usageTypes : List (LuaExpression × TySet) := []
  currentModule : String := ""

/-- Association-list lookup, the model of `Map.get`. -/
def alook {β : Type} (m : List (String × β)) (k : String) : Option β :=
  match m with
  | [] => none
  | (k', v) :: rest => if k' = k then some v else alook rest k

/-- `AnalysisContext.getDefinitions`: stored definition list for an item ID (default `[]`). -/
def getDefinitions (ctx : Ctx) (id : String) : List ExprInfo :=
  (alook ctx.definitions id).getD []

/-- `AnalysisContext.getTableInfo`: table info for an ID, a fresh empty record if absent. -/
def getTableInfo (ctx : Ctx) (id : String) : TableInfoR :=
  (alook ctx.tables id).getD {}

/-- `AnalysisContext.getFunctionInfo`: function info for an ID, fresh empty record if absent. -/
def getFunctionInfo (ctx : Ctx) (id : String) : FunctionInfoR :=
  (alook ctx.funcs id).getD {}

/-- `AnalysisContext.getFunctionIdFromParamId`. -/
def getFunctionIdFromParamId (ctx : Ctx) (id : String) : Option String :=
  alook ctx.paramToFunc id

/--
Modelled from the spec: the helper `readLuaStringLiteral` (its defining
file is not part of the provided sources; only its call sites are) reads
the textual contents of a Lua string-literal token, i.e. strips the
surrounding quotes.  The glossary describes literal keys as "string keys
are double-quoted with internal quotes escaped; numeric keys are their
textual form".  No settled claim depends on its exact behavior.
-/
def readLuaStringLiteral (s : String) : Option String :=
  let cs := s.toList
  match cs with
  | c :: _ :: _ =>
    if (c = '"' ∨ c = '\x27') ∧ cs.getLast? = some c then
      some (String.mk (cs.drop 1).dropLast)
    else none
  | _ => none

/-- JS falsiness of an optional string (`undefined` and `""` are falsy). -/
def jsFalsy (s : Option String) : Bool :=
  match s with
  | none => true
  | some v => v = ""

/--
`AnalysisContext.getLiteralKey(key, type?)`: canonical `definitions` key.
Without a type the key itself is quoted; with type `string` the literal's
contents are re-quoted; other types pass the key through unchanged.
-/
def getLiteralKey (key : String) (ty : Option String := none) : String :=
  let internal : Option String :=
    match ty with
    | none => some key
    | some t => if t = "string" then readLuaStringLiteral key else none
  if jsFalsy internal then key
  else "\"" ++ (internal.getD "").replace "\"" "\\\"" ++ "\""

/-- `AnalysisContext.getModule(name, checkAliases)`. -/
def getModule (ctx : Ctx) (name : String) (checkAliases : Bool) : Option ResolvedModuleR :=
  match alook ctx.modules name with
  | some m => some m
  | none =>
    if checkAliases then
      match alook ctx.aliasMap name with
      | some aliasIds =>
        match aliasIds.head? with
        | some firstAlias => alook ctx.modules firstAlias
        | none => none
      | none => none
    else none

/-- Value-keyed lookup in the usage map (`usageTypes.get(expr)`). -/
def lookupUsage (m : List (LuaExpression × TySet)) (e : LuaExpression) : Option TySet :=
  match m with
  | [] => none
  | (e', v) :: rest => if e' == e then some v else lookupUsage rest e

/--
`AnalysisContext.getUsageTypes`: the stored usage mask, or `none` when it
is missing, empty, or has all five elements.
-/
def getUsageTypes (ctx : Ctx) (e : LuaExpression) : Option TySet :=
  match lookupUsage ctx.usageTypes e with
  | none => none
  | some ts => if ts.length = 0 ∨ ts.length = 5 then none else some ts

/--
`TypeResolver.getTruthiness`: truthiness of a set of types, `none` if
undetermined (the set mixes truthy and falsy possibilities, or is empty).
-/
def getTruthiness (types : TySet) : Option Bool :=
  let rec go (l : List String) (hasTruthy hasFalsy : Bool) : Bool × Bool :=
    match l with
    | [] => (hasTruthy, hasFalsy)
    | ty :: rest =>
      if ty = "boolean" then (true, true)
      else if ty = "false" ∨ ty = "nil" then go rest hasTruthy true
      else go rest true hasFalsy
  let (hasTruthy, hasFalsy) := go types false false
  if hasTruthy = hasFalsy then none else some hasTruthy

/-- Filter predicate of `narrowTypes`: a type is permitted by the usage mask. -/
def narrowKeeps (usage : TySet) (ty : String) : Bool :=
  (ty.startsWith "@function" && usage.contains "function") ||
  (ty.startsWith "@table" && usage.contains "table") ||
  usage.contains ty

/-- `TypeResolver.narrowTypes`: narrow a type set by the usage mask of `expr`. -/
def narrowTypes (ctx : Ctx) (expr : LuaExpression) (types : TySet) : TySet :=
  if types.length ≤ 1 then types
  else
    match getUsageTypes ctx expr with
    | none => types
    | some usage =>
      let narrowed := types.filter (narrowKeeps usage)
      if narrowed.isEmpty then types else narrowed

/-- `TypeResolver.addKnownReturns`: built-in return types by callee name. -/
def addKnownReturns (expr : LuaExpression) : Option TySet :=
  match expr with
  | .reference id =>
    if id = "tonumber" then some ["number", "nil"]
    else if id = "getTextOrNull" then some ["string", "nil"]
    else if id = "tostring" ∨ id = "getText" then some ["string"]
    else none
  | _ => none

mutual

/-- `TypeResolver.isLiteralOperation`: a literal, or an operation tree of non-call operations over literals. -/
def isLiteralOperation : LuaExpression → Bool
  | .literal .. => true
  | .operation op args => if op = "call" then false else isLitList args
  | _ => false

/-- All elements of the list satisfy `isLiteralOperation`. -/
def isLitList : List LuaExpression → Bool
  | [] => true
  | e :: rest => isLiteralOperation e && isLitList rest

end

/-- The `seen` memoization map: identity tag to accumulated type set. -/
abbrev Seen := List (Nat × TySet)

/-- `Map.get` on the memo map. -/
def lookupSeen (s : Seen) (t : Nat) : Option TySet :=
  match s with
  | [] => none
  | (k, v) :: rest => if k = t then some v else lookupSeen rest t

/-- `Map.set` on the memo map: replace in place or append. -/
def setSeen (s : Seen) (t : Nat) (v : TySet) : Seen :=
  match s with
  | [] => [(t, v)]
  | (k, w) :: rest => if k = t then (t, v) :: rest else (k, w) :: setSeen rest t v

/-- The final `{true,false} → boolean` collapse at the end of `resolve`. -/
def collapseTF (types : TySet) : TySet :=
  if "true" ∈ types ∧ "false" ∈ types then
    addT ((types.filter (· ≠ "true")).filter (· ≠ "false")) "boolean"
  else types

/-- `seen.set(info, v)` when the info has an identity; otherwise no observable effect. -/
def insSeen (tag : Option Nat) (seen : Seen) (v : TySet) : Seen :=
  match tag with
  | some t => setSeen seen t v
  | none => seen

/--
The tail of `resolve` shared by all expression variants: narrow by usage,
copy into the result set (`types`), store the result for the info's
identity, and collapse the `true`/`false` pair.  (The source stores the
`types` object and then mutates it, so the stored entry also sees the
collapse.)
-/
def finishRes (ctx : Ctx) (info : ExprInfo) (typesToAdd : TySet) (seen : Seen) :
    TySet × Seen :=
  let types := collapseTF (dedupT (narrowTypes ctx info.expression typesToAdd))
  (types, insSeen info.tag seen types)

/-- A literal value as returned by `resolveToLiteral`. -/
structure LitResult where
  luaType : String
  lit : Option String
  deriving DecidableEq, Repr

/-- The type set contributed by a literal expression in `resolve`. -/
def literalTypes (luaType : String) (lit : Option String) (tableId : Option String)
    (functionId : Option String) : TySet :=
  if lit = some "true" then ["true"]
  else if lit = some "false" then ["false"]
  else match tableId with
    | some tid => [tid]
    | none => match functionId with
      | some fid => [fid]
      | none => [luaType]

/-- The type set contributed by a `require` expression in `resolve`. -/
def requireTypes (ctx : Ctx) (modName : String) (index : Option Nat) : TySet :=
  match getModule ctx modName true with
  | none => []
  | some m => ((m.returns.get? (index.getD 1 - 1)).map (·.types)).getD []

/-- The `@`-ID seed of the `reference` case of `resolve`. -/
def referenceSeed (id : String) : TySet :=
  if id.startsWith "@parameter" || id.startsWith "@self"
      || id.startsWith "@function" || id.startsWith "@instance" then [id]
  else []

mutual

/--
`TypeResolver.resolve(info, seen)`, fueled.  Returns the computed type
set and the updated memo map, or `none` if the fuel ran out.  The
per-variant work of the `switch` is split into the `resolve...T`
helpers below; the shared tail is `finishRes`.
-/
def resolveT : Nat → Ctx → ExprInfo → Seen → Option (TySet × Seen)
  | 0, _, _, _ => none
  | fuel + 1, ctx, info, seen =>
    -- checkCycle: an identity-tagged info already in the map returns its entry
    match info.tag.bind (lookupSeen seen) with
    | some existing => some (existing, seen)
    | none =>
      -- seen.set(info, new Set()) before any recursion
      let body : Option (TySet × Seen) :=
        match info.expression with
        | .literal luaType lit tableId functionId _ =>
          some (literalTypes luaType lit tableId functionId, insSeen info.tag seen [])
        | .operation op args =>
          resolveOpT fuel ctx op args (info.index.getD 1) (insSeen info.tag seen [])
        | .reference id => resolveRefT fuel ctx id (insSeen info.tag seen [])
        | .member base mem _ =>
          resolveMemberT fuel ctx base info.index mem (insSeen info.tag seen [])
        | .index base idx =>
          resolveIndexT fuel ctx base idx info.index (insSeen info.tag seen [])
        | .requireE modName =>
          some (requireTypes ctx modName info.index, insSeen info.tag seen [])
      match body with
      | none => none
      | some (typesToAdd, seen) => some (finishRes ctx info typesToAdd seen)

/--
The `reference` case of `resolve`: seed with the ID itself for reserved
roles; for parameters add the function's accumulated parameter types at
this parameter's slot (skipping the definitions walk when the parameter
belongs to no known function); then union over all stored definitions.
-/
def resolveRefT : Nat → Ctx → String → Seen → Option (TySet × Seen)
  | 0, _, _, _ => none
  | fuel + 1, ctx, id, seen =>
    let t0 := referenceSeed id
    if id.startsWith "@parameter" || id.startsWith "@self" then
      match getFunctionIdFromParamId ctx id with
      | none => some (t0, seen)
      | some funcId =>
        let funcInfo := getFunctionInfo ctx funcId
        let t1 :=
          match funcInfo.parameters.findIdx? (· == id) with
          | some i => unionT t0 ((funcInfo.parameterTypes.get? i).join.getD [])
          | none => t0
        resolveDefsT fuel ctx (getDefinitions ctx id) t1 seen
    else
      resolveDefsT fuel ctx (getDefinitions ctx id) t0 seen

/-- The `member` case of `resolve`: resolve the base, then the field types. -/
def resolveMemberT : Nat → Ctx → LuaExpression → Option Nat → String → Seen →
    Option (TySet × Seen)
  | 0, _, _, _, _, _ => none
  | fuel + 1, ctx, base, index, mem, seen =>
    match resolveT fuel ctx (mkInfoIdx base index) seen with
    | none => none
    | some (baseTypes, seen) => rftGoT fuel ctx baseTypes mem false [] seen

/--
The `index` case of `resolve`: resolve the base, fold the index
expression to a literal, and resolve the field types under the literal
key; an unfoldable or empty literal yields the empty set.
-/
def resolveIndexT : Nat → Ctx → LuaExpression → LuaExpression → Option Nat → Seen →
    Option (TySet × Seen)
  | 0, _, _, _, _, _ => none
  | fuel + 1, ctx, base, idx, index, seen =>
    match resolveT fuel ctx (mkInfoIdx base index) seen with
    | none => none
    | some (baseTypes, seen) =>
      match rtlLoopT fuel ctx [mkInfo idx] seen with
      | none => none
      | some (litRes, seen) =>
        match litRes with
        | some l =>
          -- `if (!index || !index.literal)` — an absent or empty literal fails
          if jsFalsy l.lit then some ([], seen)
          else
            let key := getLiteralKey (l.lit.getD "") (some l.luaType)
            rftGoT fuel ctx baseTypes key true [] seen
        | none => some ([], seen)

/-- Fold of `resolve` over a list of stored definitions, unioning results. -/
def resolveDefsT : Nat → Ctx → List ExprInfo → TySet → Seen → Option (TySet × Seen)
  | 0, _, _, _, _ => none
  | _ + 1, _, [], acc, seen => some (acc, seen)
  | fuel + 1, ctx, d :: rest, acc, seen =>
    match resolveT fuel ctx d seen with
    | none => none
    | some (ts, seen) => resolveDefsT fuel ctx rest (unionT acc ts) seen

/-- `TypeResolver.resolveFieldTypes`: union the resolved definitions of a field over all `@table` base types, iterating the base types with `acc` as the set under construction. -/
def rftGoT : Nat → Ctx → List String → String → Bool → TySet → Seen → Option (TySet × Seen)
  | 0, _, _, _, _, _, _ => none
  | _ + 1, _, [], _, _, acc, seen => some (acc, seen)
  | fuel + 1, ctx, ty :: rest, field, isIndex, acc, seen =>
    if ty.startsWith "@table" then
      let info := getTableInfo ctx ty
      let literalKey := if isIndex then field else getLiteralKey field
      let fieldDefs := (alook info.definitions literalKey).getD []
      match resolveDefsT fuel ctx fieldDefs acc seen with
      | none => none
      | some (acc, seen) => rftGoT fuel ctx rest field isIndex acc seen
    else
      rftGoT fuel ctx rest field isIndex acc seen

/-- `TypeResolver.resolveReturnTypes(op)`: per-slot return type sets of a call, `none` result when unresolvable. -/
def resolveReturnTypesT : Nat → Ctx → List LuaExpression → Seen →
    Option (Option (List TySet) × Seen)
  | 0, _, _, _ => none
  | fuel + 1, ctx, args, seen =>
    match args.head? with
    | none => some (none, seen)
    | some func =>
      match addKnownReturns func with
      | some known => some (some [known], seen)
      | none =>
        match resolveT fuel ctx (mkInfo func) seen with
        | none => none
        | some (resolvedFuncTypes, seen) =>
          match resolvedFuncTypes with
          | [resolvedFunc] =>
            if resolvedFunc.startsWith "@function" then
              let funcInfo := getFunctionInfo ctx resolvedFunc
              if funcInfo.isConstructor then
                some (some [unionT ["@instance"] ((funcInfo.returnTypes.get? 0).getD [])], seen)
              else
                some (some (funcInfo.returnTypes.map dedupT), seen)
            else some (none, seen)
          | _ => some (none, seen)

/--
Detects the ternary shape of the `or` branch: for a left operand
`X and Y` the substituted expression is `Y` (`lhs.arguments[1]`).
-/
def ternaryArg : LuaExpression → Option LuaExpression
  | .operation lop largs => if lop = "and" then largs.get? 1 else none
  | _ => none

/--
The ternary special case of the `or` branch (`X and Y or Z` → use the
types of `Y` in place of the left operand); any other left operand keeps
its own resolved types.
-/
def resolveTernT : Nat → Ctx → LuaExpression → TySet → Seen → Option (TySet × Seen)
  | 0, _, _, _, _ => none
  | fuel + 1, ctx, lhs, lhsTypes0, seen =>
    match ternaryArg lhs with
    | some y => resolveT fuel ctx (mkInfo y) seen
    | none => some (lhsTypes0, seen)

/-- The `or` case of `resolveOperationTypes`. -/
def resolveOrT : Nat → Ctx → LuaExpression → LuaExpression → Seen → Option (TySet × Seen)
  | 0, _, _, _, _ => none
  | fuel + 1, ctx, lhs, rhs, seen =>
    match resolveT fuel ctx (mkInfo lhs) seen with
    | none => none
    | some (lhsTypes0, seen) =>
      match resolveT fuel ctx (mkInfo rhs) seen with
      | none => none
      | some (rhsTypes, seen) =>
        -- X and Y or Z → use Y & Z (ternary special case)
        match resolveTernT fuel ctx lhs lhsTypes0 seen with
        | none => none
        | some (lhsTypes, seen) =>
          let lhsTruthy := if isLiteralOperation lhs then getTruthiness lhsTypes else none
          -- lhs falsy → use only rhs types; truthy or undetermined → use both
          if lhsTruthy = some false then some (dedupT rhsTypes, seen)
          else some (unionT (dedupT rhsTypes) lhsTypes, seen)

/-- The `and` case of `resolveOperationTypes`. -/
def resolveAndT : Nat → Ctx → LuaExpression → LuaExpression → Seen → Option (TySet × Seen)
  | 0, _, _, _, _ => none
  | fuel + 1, ctx, lhs, rhs, seen =>
    match resolveT fuel ctx (mkInfo lhs) seen with
    | none => none
    | some (lhsTypes, seen) =>
      match resolveT fuel ctx (mkInfo rhs) seen with
      | none => none
      | some (rhsTypes, seen) =>
        let lhsTruthy := if isLiteralOperation lhs then getTruthiness lhsTypes else none
        match lhsTruthy with
        | some true => some (dedupT rhsTypes, seen)
        | some false => some (dedupT lhsTypes, seen)
        | none => some (unionT (dedupT lhsTypes) rhsTypes, seen)

/-- `TypeResolver.resolveOperationTypes(op, seen, index)`. -/
def resolveOpT : Nat → Ctx → String → List LuaExpression → Nat → Seen → Option (TySet × Seen)
  | 0, _, _, _, _, _ => none
  | fuel + 1, ctx, op, args, index, seen =>
    if op = "call" then
      match resolveReturnTypesT fuel ctx args seen with
      | none => none
      | some (returnTypes, seen) =>
        match returnTypes with
        | none => some ([], seen)
        | some rts =>
          match rts.get? (index - 1) with
          | none => some (["nil"], seen)
          | some returns => some (dedupT returns, seen)
    else if op = ".." then some (["string"], seen)
    else if op = "~=" ∨ op = "==" ∨ op = "<" ∨ op = "<=" ∨ op = ">" ∨ op = ">=" then
      some (["boolean"], seen)
    else if op = "+" ∨ op = "-" ∨ op = "*" ∨ op = "%" ∨ op = "^" ∨ op = "/" ∨ op = "//"
        ∨ op = "&" ∨ op = "|" ∨ op = "~" ∨ op = "<<" ∨ op = ">>" ∨ op = "#" then
      some (["number"], seen)
    else if op = "not" then
      match args.head? with
      | none => some ([], seen)
      | some a0 =>
        match resolveT fuel ctx (mkInfo a0) seen with
        | none => none
        | some (argTypes, seen) =>
          let truthy := if isLiteralOperation a0 then getTruthiness argTypes else none
          match truthy with
          | none => some (["boolean"], seen)
          | some b => some ([if b then "false" else "true"], seen)
    else if op = "or" then
      match args.get? 0, args.get? 1 with
      | some lhs, some rhs => resolveOrT fuel ctx lhs rhs seen
      | _, _ => some ([], seen)
    else if op = "and" then
      match args.get? 0, args.get? 1 with
      | some lhs, some rhs => resolveAndT fuel ctx lhs rhs seen
      | _, _ => some ([], seen)
    else some ([], seen)

/--
The `while` loop of `TypeResolver.resolveToLiteral`, fueled.  The stack
holds pending infos; the source's loop body pops one, may push a single
definition, and may return a literal (or `undefined`) for the whole call.
The loop performs no cycle detection of its own.
-/
def rtlLoopT : Nat → Ctx → List ExprInfo → Seen → Option (Option LitResult × Seen)
  | 0, _, _, _ => none
  | _ + 1, _, [], seen => some (none, seen)
  | fuel + 1, ctx, info :: rest, seen =>
    match info.expression with
    | .literal luaType lit _ _ _ =>
      if luaType ≠ "table" ∧ luaType ≠ "function" then
        some (some ⟨luaType, lit⟩, seen)
      else some (none, seen)
    | .reference id =>
      let fieldDefs := getDefinitions ctx id
      match fieldDefs with
      | [d] => rtlLoopT fuel ctx (d :: rest) seen
      | _ => rtlLoopT fuel ctx rest seen
    | .member base mem _ =>
      -- resolve(base) is called with a fresh memo map here in the source
      match resolveT fuel ctx (mkInfo base) [] with
      | none => none
      | some (memberBase, _) =>
        match memberBase with
        | [bty] =>
          let tableInfo := getTableInfo ctx bty
          let key := getLiteralKey mem
          match (alook tableInfo.definitions key).getD [] with
          | [d] => rtlLoopT fuel ctx (d :: rest) seen
          | _ => rtlLoopT fuel ctx rest seen
        | _ => rtlLoopT fuel ctx rest seen
    | .index base idx =>
      match resolveT fuel ctx (mkInfo base) [] with
      | none => none
      | some (indexBase, _) =>
        match indexBase with
        | [bty] =>
          match rtlLoopT fuel ctx [mkInfo idx] seen with
          | none => none
          | some (litRes, seen) =>
            match litRes with
            | some l =>
              if jsFalsy l.lit then rtlLoopT fuel ctx rest seen
              else
                let tableInfo := getTableInfo ctx bty
                let key := getLiteralKey (l.lit.getD "") (some l.luaType)
                match (alook tableInfo.definitions key).getD [] with
                | [d] => rtlLoopT fuel ctx (d :: rest) seen
                | _ => rtlLoopT fuel ctx rest seen
            | none => rtlLoopT fuel ctx rest seen
        | _ => rtlLoopT fuel ctx rest seen
    | .operation _ _ =>
      match resolveT fuel ctx (mkInfo info.expression) seen with
      | none => none
      | some (types, seen) =>
        match types with
        | [single] =>
          if single = "true" ∨ single = "false" then
            some (some ⟨"boolean", some single⟩, seen)
          else rtlLoopT fuel ctx rest seen
        | _ => rtlLoopT fuel ctx rest seen
    | .requireE _ => rtlLoopT fuel ctx rest seen

end

/-- `TypeResolver.resolveToLiteral(expression, seen)`, fueled. -/
def resolveToLiteralT (fuel : Nat) (ctx : Ctx) (e : LuaExpression) (seen : Seen) :
    Option (Option LitResult × Seen) :=
  rtlLoopT fuel ctx [mkInfo e] seen

/--
A context state produced by analyzing the legal Lua statement `a = a`
at module level: the item `a` has the single stored definition
`reference a`.  (`addAssignment` unconditionally records the right-hand
side as a definition of a reference left-hand side.)
-/
def ctxSelfRef : Ctx :=
  { definitions := [("a", [{ expression := .reference "a", tag := some 0 }])] }

/-- `Set.delete`: remove an element, preserving order. -/
def delT (l : TySet) (x : String) : TySet :=
  l.filter (· ≠ x)

/-- The 5-element usage universe a fresh usage mask starts from. -/
def usageUniverse : TySet :=
  ["boolean", "function", "number", "string", "table"]

/-- A `UsageItem` as consumed by `AnalysisContext.addUsage`. -/
structure UsageItem where
  expression : LuaExpression
  supportsConcatenation : Bool := false
  supportsIndexing : Bool := false
  supportsLength : Bool := false
  supportsIndexAssignment : Bool := false
  supportsMath : Bool := false
  inNumericFor : Bool := false
  arguments : Option (List LuaExpression) := none

/-- `Map.set` on the usage map (structural keys; see `lookupUsage`). -/
def setUsage (m : List (LuaExpression × TySet)) (e : LuaExpression) (v : TySet) :
    List (LuaExpression × TySet) :=
  match m with
  | [] => [(e, v)]
  | (e', w) :: rest => if e' == e then (e, v) :: rest else (e', w) :: setUsage rest e v

/--
The mask update of `AnalysisContext.addUsage`: the stored mask (or a
fresh copy of the 5-element universe) with the per-flag deletions
applied in source order; the `arguments` branch deletes everything but
`function` before the argument analysis runs.
-/
def newMask (ctx : Ctx) (item : UsageItem) : TySet :=
  let u0 := (lookupUsage ctx.usageTypes item.expression).getD usageUniverse
  let u1 :=
    if item.supportsConcatenation then
      delT (delT (delT u0 "boolean") "function") "table"
    else u0
  let u2 :=
    if item.supportsIndexing || item.supportsLength then
      delT (delT (delT u1 "boolean") "function") "number"
    else u1
  let u3 :=
    if item.supportsIndexAssignment then
      delT (delT (delT (delT u2 "boolean") "function") "number") "string"
    else u2
  let u4 :=
    if item.supportsMath || item.inNumericFor then
      delT (delT (delT (delT u3 "boolean") "function") "string") "table"
    else u3
  match item.arguments with
  | none => u4
  | some _ => delT (delT (delT (delT u4 "boolean") "number") "string") "table"

/-- The mask half of `AnalysisContext.addUsage` (everything before the argument analysis). -/
def addUsageMask (ctx : Ctx) (item : UsageItem) : Ctx :=
  { ctx with usageTypes := setUsage ctx.usageTypes item.expression (newMask ctx item) }

/-- `parameterTypes[i]`, `undefined`-safe. -/
def getPT (pts : List (Option TySet)) (i : Nat) : TySet :=
  ((pts.get? i).join).getD []

/-- `parameterTypes[i] = v`, extending the array with holes as JS does. -/
def setPT (pts : List (Option TySet)) (i : Nat) (v : TySet) : List (Option TySet) :=
  (pts ++ List.replicate (i + 1 - pts.length) none).set i (some v)

/-- Union each passed argument's resolved types into the inferred parameter types. -/
def addArgTypesT : Nat → Ctx → List LuaExpression → Nat → List (Option TySet) →
    Option (List (Option TySet))
  | 0, _, _, _, _ => none
  | _ + 1, _, [], _, pts => some pts
  | fuel + 1, ctx, arg :: rest, i, pts =>
    match resolveT fuel ctx (mkInfo arg) [] with
    | none => none
    | some (ts, _) =>
      addArgTypesT fuel ctx rest (i + 1) (setPT pts i (unionT (getPT pts i) ts))

/-- Add `nil` to the inferred types of parameters beyond the passed arguments. -/
def addNilPadding (pts : List (Option TySet)) (start : Nat) : List (Option TySet) :=
  let rec go (pts : List (Option TySet)) (i : Nat) (remaining : Nat) :
      List (Option TySet) :=
    match remaining with
    | 0 => pts
    | r + 1 => go (setPT pts i (addT (getPT pts i) "nil")) (i + 1) r
  go pts start (pts.length - start)

/-- Replace a function record in the context's function map. -/
def setFuncInfo (ctx : Ctx) (id : String) (fi : FunctionInfoR) : Ctx :=
  { ctx with funcs := (id, fi) :: ctx.funcs.filter (fun p => p.1 ≠ id) }

/--
The argument-analysis half of `AnalysisContext.addUsage`: when arguments
are recorded and the used expression resolves to a single `@function`
ID, union each argument's types into that function's inferred parameter
types, and add `nil` to parameters that received no argument.  The usage
masks are not touched here.
-/
def addUsageArgsT (fuel : Nat) (ctx : Ctx) (item : UsageItem) : Option Ctx :=
  match item.arguments with
  | none => some ctx
  | some args =>
    match resolveT fuel ctx (mkInfo item.expression) [] with
    | none => none
    | some (types, _) =>
      match types with
      | [id] =>
        if id.startsWith "@function" then
          let funcInfo := getFunctionInfo ctx id
          match addArgTypesT fuel ctx args 0 funcInfo.parameterTypes with
          | none => none
          | some pts1 =>
            let pts2 := addNilPadding pts1 args.length
            some (setFuncInfo ctx id { funcInfo with parameterTypes := pts2 })
        else some ctx
      | _ => some ctx

/-- `AnalysisContext.addUsage`: mask update, then argument analysis. -/
def addUsageT (fuel : Nat) (ctx : Ctx) (item : UsageItem) : Option Ctx :=
  addUsageArgsT fuel (addUsageMask ctx item) item

/-- A usage mask permits a type iff no recorded usage kind deletes it. -/
def usageKeeps (item : UsageItem) (t : String) : Bool :=
  (!item.supportsConcatenation || (t ≠ "boolean" ∧ t ≠ "function" ∧ t ≠ "table")) &&
  (!(item.supportsIndexing || item.supportsLength)
    || (t ≠ "boolean" ∧ t ≠ "function" ∧ t ≠ "number")) &&
  (!item.supportsIndexAssignment
    || (t ≠ "boolean" ∧ t ≠ "function" ∧ t ≠ "number" ∧ t ≠ "string")) &&
  (!(item.supportsMath || item.inNumericFor)
    || (t ≠ "boolean" ∧ t ≠ "function" ∧ t ≠ "string" ∧ t ≠ "table")) &&
  (item.arguments.isNone
    || (t ≠ "boolean" ∧ t ≠ "number" ∧ t ≠ "string" ∧ t ≠ "table"))

/--
A context state with two registered modules sharing the path suffix `m`,
whose alias map therefore maps `m` to both full identifiers.
-/
def ctxAlias : Ctx :=
  { modules :=
      [("a/m", { returns := [{ types := ["string"] }] }),
       ("b/m", { returns := [{ types := ["number"] }] })],
    aliasMap := [("m", ["a/m", "b/m"])] }

/-
### Analyzer.read (C8)
-/

/-- Membership test on a list of identifiers (models `Set.has`). -/
def hasStr : List String → String → Bool
  | [], _ => false
  | y :: rest, x => if x = y then true else hasStr rest x

/--
The analysis pass of `Analyzer.read`: identifiers are processed in
order; an identifier already in the file set raises the duplicate-file
error before being re-added (the error is caught, logged and processing
continues), and otherwise the identifier enters the file set before its
module is read, so a failed read (`readOk id = false`, a malformed
module) still records the identifier.  The returned list holds the
successfully analyzed identifiers in input order.
-/
def readLoop (readOk : String → Bool) : List String → List String → List String
  | _, [] => []
  | fileSet, id :: rest =>
    if hasStr fileSet id then readLoop readOk fileSet rest
    else if readOk id then id :: readLoop readOk (id :: fileSet) rest
    else readLoop readOk (id :: fileSet) rest

/--
The result pass of `Analyzer.read`: walk the input identifiers again and
push the finalized module of each identifier present in the module map.
The module payload is opaque to this loop, hence the type parameter.
-/
def readResult {α : Type} (moduleMap : String → Option α)
    (identifiers : List String) : List α :=
  identifiers.filterMap moduleMap

/--
Modelled from the spec: keep the first occurrence of each identifier and
skip later duplicates.  Used to state what `readLoop` computes on the
successfully read identifiers.
-/
def dedupFirst : List String → List String → List String
  | _, [] => []
  | seen, x :: rest =>
    if hasStr seen x then dedupFirst seen rest
    else x :: dedupFirst (x :: seen) rest

/-
### AnalysisFinalizer.finalizeClassFields and isEmptyClass (C9, C10)
-/

/-- A finalized class field: a name and its set of type strings. -/
structure AnalyzedFieldR where
  name : String
  types : TySet
deriving Repr, DecidableEq

/--
An analyzed class, keeping the components inspected by `isEmptyClass`,
`finalizeClassFields` and the empty-class skip in `finalize`.  The
functions, methods, constructors and overloads are opaque to those, so
only their names are kept.
-/
structure AnalyzedClassR where
  name : String := ""
  extendsB : Option String := none
  definingModule : String := ""
  fields : List AnalyzedFieldR := []
  literalFields : List AnalyzedFieldR := []
  staticFields : List AnalyzedFieldR := []
  setterFields : List AnalyzedFieldR := []
  functions : List String := []
  methods : List String := []
  constructors : List String := []
  functionConstructors : List String := []
  overloads : List String := []
deriving Repr, DecidableEq

/-- The class-name → definitions map built during `finalize`. -/
abbrev ClsMap := List (String × List AnalyzedClassR)

/-- `isEmptyClass`: a finalized class with no associated information. -/
def isEmptyClass (cls : AnalyzedClassR) : Bool :=
  cls.fields.length == 0 &&
  cls.literalFields.length == 0 &&
  cls.staticFields.length == 0 &&
  cls.functions.length == 0 &&
  cls.methods.length == 0 &&
  cls.constructors.length == 0 &&
  cls.functionConstructors.length == 0 &&
  cls.overloads.length == 0

/--
The empty-class skip in `AnalysisFinalizer.finalize`: a finalized class
is not emitted when its defining module is set, differs from the module
being finalized, and the class is empty.
-/
def skipsEmptyClass (currentModule : String) (cls : AnalyzedClassR) : Bool :=
  !(cls.definingModule == "") && !(cls.definingModule == currentModule) &&
    isEmptyClass cls

/-- Equality of JS `Set`s of type strings: equal size plus containment. -/
def typesEqSet (types checkTypes : TySet) : Bool :=
  checkTypes.length == types.length && types.all (fun t => hasStr checkTypes t)

/-- First defined `extends` among a group of class definitions (`base ??= def.extends`). -/
def firstBase : List AnalyzedClassR → Option String
  | [] => none
  | d :: rest =>
    match d.extendsB with
    | some s => some s
    | none => firstBase rest

/--
Whether a group of class definitions holds a field matching `field` by
name and exact type set.
-/
def groupHasMatch (field : AnalyzedFieldR) (defs : List AnalyzedClassR) : Bool :=
  defs.any (fun d => d.fields.any (fun cf =>
    cf.name == field.name && typesEqSet field.types cf.types))

/--
`AnalysisFinalizer.findMatchingAncestorField`, fuelled: walk the
ancestor chain from `baseCls` through the class map looking for a field
with the same name and exact type set.  The walk keeps no seen-set, so a
cyclic `extends` chain loops forever; `none` models exhausted fuel.
-/
def findMatchingAncestorField :
    Nat → AnalyzedFieldR → String → ClsMap → Option Bool
  | 0, _, _, _ => none
  | fuel + 1, field, baseCls, m =>
    match alook m baseCls with
    | none => some false
    | some defs =>
      if groupHasMatch field defs then some true
      else
        match firstBase defs with
        | some b =>
          if b = "" then some false
          else findMatchingAncestorField fuel field b m
        | none => some false

/--
The seen/toRemove loop of `finalizeClassFields` for one class: check the
first field of each name against the ancestor chain and collect the
names to remove.
-/
def toRemoveGo (fuel : Nat) (m : ClsMap) (b : String) :
    List AnalyzedFieldR → List String → Option (List String)
  | [], _ => some []
  | f :: rest, seen =>
    if hasStr seen f.name then toRemoveGo fuel m b rest seen
    else
      match findMatchingAncestorField fuel f b m with
      | none => none
      | some found =>
        match toRemoveGo fuel m b rest (f.name :: seen) with
        | none => none
        | some tr => some (if found then f.name :: tr else tr)

/-- First field carrying the given name. -/
def firstField : List AnalyzedFieldR → String → Option AnalyzedFieldR
  | [], _ => none
  | f :: rest, n => if f.name = n then some f else firstField rest n

/--
The matched-ancestor test defining which field names
`finalizeClassFields` removes: the first field of that name has a
matching field along the ancestor chain.
-/
def removedName (fuel : Nat) (m : ClsMap) (cls : AnalyzedClassR) (n : String) : Bool :=
  match firstField cls.fields n with
  | none => false
  | some f =>
    (findMatchingAncestorField fuel f (cls.extendsB.getD "") m).getD false

/--
The per-class body of `finalizeClassFields`: skip classes without an
`extends` base, otherwise drop every field whose name was marked for
removal.
-/
def fcfClass (fuel : Nat) (m : ClsMap) (cls : AnalyzedClassR) :
    Option AnalyzedClassR :=
  if jsFalsy cls.extendsB then some cls
  else
    match toRemoveGo fuel m (cls.extendsB.getD "") cls.fields [] with
    | none => none
    | some tr =>
      if tr = [] then some cls
      else some { cls with
        fields := cls.fields.filter (fun x => !(hasStr tr x.name)) }

/-- Replace the class list stored under a name (in-place `Map` update). -/
def setCls : ClsMap → String → List AnalyzedClassR → ClsMap
  | [], _, _ => []
  | (k2, g2) :: rest, k, g =>
    if k2 = k then (k2, g) :: rest else (k2, g2) :: setCls rest k g

/--
`finalizeClassFields` on the group stored under `k`: the classes of the
group are pruned one at a time, each pruning reading the class map as
mutated by the earlier ones.
-/
def fcfGroupGo (fuel : Nat) (k : String) : ClsMap → Nat → Nat → Option ClsMap
  | m, _, 0 => some m
  | m, i, r + 1 =>
    match alook m k with
    | none => some m
    | some g =>
      match g.get? i with
      | none => some m
      | some cls =>
        match fcfClass fuel m cls with
        | none => none
        | some cls2 => fcfGroupGo fuel k (setCls m k (g.set i cls2)) (i + 1) r

/-- `AnalysisFinalizer.finalizeClassFields` applied to the group under `k`. -/
def finalizeClassFields (fuel : Nat) (k : String) (m : ClsMap) : Option ClsMap :=
  fcfGroupGo fuel k m 0 ((alook m k).getD []).length

/-- The `finalize` loop pruning every group of the class map in order. -/
def fcfPassGo (fuel : Nat) : List String → ClsMap → Option ClsMap
  | [], m => some m
  | k :: rest, m =>
    match finalizeClassFields fuel k m with
    | none => none
    | some m2 => fcfPassGo fuel rest m2

/-- One full `finalizeClassFields` pass over the class map. -/
def fcfPass (fuel : Nat) (m : ClsMap) : Option ClsMap :=
  fcfPassGo fuel (m.map Prod.fst) m

/--
Example class map: base class `A` with field `x : number`; class `B`
extending `A`, repeating `x : number` and adding its own `y : string`.
-/
def cMapEx : ClsMap :=
  [("A", [{ name := "A", fields := [⟨"x", ["number"]⟩] }]),
   ("B", [{ name := "B", extendsB := some "A",
            fields := [⟨"x", ["number"]⟩, ⟨"y", ["string"]⟩] }])]

/-- The class map above after pruning: `B` loses the inherited `x`. -/
def cMapEx1 : ClsMap :=
  [("A", [{ name := "A", fields := [⟨"x", ["number"]⟩] }]),
   ("B", [{ name := "B", extendsB := some "A",
            fields := [⟨"y", ["string"]⟩] }])]

/-- Pruning order on classes: same `extends` base, fields a subset. -/
def ClassLE (c2 c : AnalyzedClassR) : Prop :=
  c2.extendsB = c.extendsB ∧ ∀ f ∈ c2.fields, f ∈ c.fields

/-- Pointwise pruning order on class groups. -/
def GroupLE : List AnalyzedClassR → List AnalyzedClassR → Prop :=
  List.Forall₂ ClassLE

/-- Pointwise pruning order on class maps: same keys, pruned groups. -/
def MapLE : ClsMap → ClsMap → Prop :=
  List.Forall₂ (fun p q => p.1 = q.1 ∧ GroupLE p.2 q.2)

/-- No fuel ever finds a matching ancestor field. -/
def NoMatch (m : ClsMap) (f : AnalyzedFieldR) (b : String) : Prop :=
  ∀ fuel, findMatchingAncestorField fuel f b m ≠ some true

/--
A pruned class: every first-of-its-name field has no matching ancestor
field in the map.
-/
def ClsOK (cls : AnalyzedClassR) (m : ClsMap) : Prop :=
  jsFalsy cls.extendsB = false →
    ∀ f, firstField cls.fields f.name = some f →
      NoMatch m f (cls.extendsB.getD "")

/-
### AnalysisFinalizer.finalizeTypes and finalizeExpression (C1)
-/

/-- Character-list prefix test. -/
def listPrefix : List Char → List Char → Bool
  | [], _ => true
  | _ :: _, [] => false
  | p :: ps, c :: cs => if p = c then listPrefix ps cs else false

/-- `String.startsWith`, on the character lists. -/
def strStarts (s pre : String) : Bool := listPrefix pre.toList s.toList

/-- Index of the first `[` in an identifier (`id.indexOf` on a bracket). -/
def idxOfBracket : List Char → Option Nat
  | [] => none
  | c :: rest => if c = '[' then some 0 else (idxOfBracket rest).map (· + 1)

/--
The unmapped-reference branch of `finalizeExpression`: an identifier
with a bracketed name suffix keeps the bracketed text, an identifier
starting with `@self` becomes `self`, and every other identifier —
including any other internal `@`-prefixed ID — is returned unchanged.
-/
def finalizeRefId (id : String) : String :=
  match idxOfBracket id.toList with
  | some start => String.mk ((id.toList.drop (start + 1)).dropLast)
  | none => if strStarts id "@self" then "self" else id

/-- The per-type rewriting step inside `finalizeTypes`. -/
def finalizeOneType (ctx : Ctx) (t : String) : Option String :=
  if t = "true" ∨ t = "false" then some "boolean"
  else if strStarts t "@table" then
    (if (getTableInfo ctx t).emitAsTable then some "table"
     else some ((getTableInfo ctx t).className.getD "table"))
  else if strStarts t "@function" then some "function"
  else if strStarts t "@" then none
  else some t

/-- The primitive type names `finalizeTypes` keeps out of `classTypes`. -/
def isPrimitiveTy (t : String) : Bool :=
  t = "nil" || t = "boolean" || t = "string" || t = "number" ||
    t = "table" || t = "function"

/--
`AnalysisFinalizer.finalizeTypes`: explicit unknowns collapse to nothing
(keeping `nil`), booleans collapse, `@table` IDs become their class name
or `table`, `@function` IDs become `function`, other `@` IDs are
dropped, and more than two class types are replaced by `table`.
-/
def finalizeTypes (ctx : Ctx) (types : TySet) : TySet :=
  if hasStr types "unknown" then
    if hasStr types "nil" then ["nil"] else []
  else
    let finalized := dedupT (types.filterMap (finalizeOneType ctx))
    let classTypes := finalized.filter (fun t => !(isPrimitiveTy t))
    if 2 < classTypes.length then
      addT (finalized.filter (fun t => isPrimitiveTy t)) "table"
    else finalized

/-
## Theorems
-/

/--
Helper for claim C2: in `ctxSelfRef`, the `resolveToLiteral` loop on a
stack holding any info whose expression is `reference a` never returns,
for any fuel: each iteration pops the info and pushes the single stored
definition of `a`, which is again `reference a`.
-/
lemma rtlLoopT_selfref (fuel : Nat) :
    ∀ (seen : Seen) (i : ExprInfo), i.expression = .reference "a" →
      rtlLoopT fuel ctxSelfRef [i] seen = none := by
  induction fuel with
  | zero => intro seen i _; rfl
  | succ f ih =>
    intro seen i h
    rw [rtlLoopT, h]
    exact ih seen { expression := .reference "a", tag := some 0 } rfl

/--
C2.  The claim states that `TypeResolver.resolve(E, seen)` terminates for
every expression info `E` and every memo-map state.  This is false: the
`index` case of `resolve` calls `resolveToLiteral` on the index
expression, and `resolveToLiteral`'s worklist loop performs no cycle
detection, so on a context where an item's single stored definition
refers back to itself (Lua `a = a`) the loop re-pushes the same
definition forever.  Formally: no amount of fuel makes the fueled
embedding of `resolve` produce a result on `t[a]` in that context.
-/
theorem c2_resolve_nontermination :
    ∀ (fuel : Nat) (seen : Seen),
      resolveT fuel ctxSelfRef (mkInfo (.index (.reference "t") (.reference "a"))) seen
        = none := by
  have hidx : ∀ (m : Nat) (s : Seen),
      resolveIndexT m ctxSelfRef (.reference "t") (.reference "a") none s = none := by
    intro m s
    match m with
    | 0 => rfl
    | 1 => rfl
    | 2 => rfl
    | 3 => rfl
    | (k + 4) =>
      rw [resolveIndexT]
      have hbase : resolveT (k + 3) ctxSelfRef (mkInfoIdx (.reference "t") none) s
          = some ([], s) := rfl
      rw [hbase]
      dsimp only
      rw [rtlLoopT_selfref (k + 3) s (mkInfo (.reference "a")) rfl]
  intro fuel seen
  match fuel with
  | 0 => rfl
  | (n + 1) =>
    rw [resolveT]
    dsimp only [mkInfo, Option.bind, insSeen]
    rw [hidx n seen]

/--
C3.  Usage narrowing, as implemented by `TypeResolver.narrowTypes`:
(1) the narrowed set is always a subset of the input set;
(2) sets with at most one element are never narrowed;
(3) absent usage information (`getUsageTypes` returns nothing) leaves the
    set unchanged;
(4) if the usage mask would eliminate every type, the set is unchanged.
-/
theorem c3_narrowing_monotone (ctx : Ctx) (e : LuaExpression) (ts : TySet) :
    (∀ x ∈ narrowTypes ctx e ts, x ∈ ts)
    ∧ (ts.length ≤ 1 → narrowTypes ctx e ts = ts)
    ∧ (getUsageTypes ctx e = none → narrowTypes ctx e ts = ts)
    ∧ (∀ usage, getUsageTypes ctx e = some usage →
        ts.filter (narrowKeeps usage) = [] → narrowTypes ctx e ts = ts) := by
  refine ⟨?_, ?_, ?_, ?_⟩
  · intro x hx
    unfold narrowTypes at hx
    split at hx
    · exact hx
    · split at hx
      · exact hx
      · dsimp only at hx
        split at hx
        · exact hx
        · exact (List.mem_filter.mp hx).1
  · intro h
    unfold narrowTypes
    simp [h]
  · intro h
    unfold narrowTypes
    split
    · rfl
    · rw [h]
  · intro usage hu hempty
    unfold narrowTypes
    split
    · rfl
    · rw [hu]
      dsimp only
      rw [hempty]
      rfl

/--
Witness for C3: in a context with no usage information the narrowing of a
two-element set is the identity, by part (3) of the theorem.
-/
theorem c3_witness :
    narrowTypes {} (.reference "x") ["string", "number"] = ["string", "number"] :=
  (c3_narrowing_monotone {} (.reference "x") ["string", "number"]).2.2.1 rfl

/-- A type set does not contain both `true` and `false`. -/
def noTF (ts : TySet) : Prop := ¬("true" ∈ ts ∧ "false" ∈ ts)

/-- Every set stored in the memo map satisfies `noTF`. -/
def seenOK (s : Seen) : Prop := ∀ p ∈ s, noTF p.2

lemma mem_addT {l : TySet} {x y : String} : x ∈ addT l y ↔ x ∈ l ∨ x = y := by
  unfold addT
  split
  · exact ⟨Or.inl, fun h => h.elim (fun hx => hx) (fun hx => hx ▸ ‹y ∈ l›)⟩
  · simp

lemma noTF_collapseTF (ts : TySet) : noTF (collapseTF ts) := by
  unfold collapseTF
  split
  · intro ⟨ht, _⟩
    rcases mem_addT.mp ht with hmem | heq
    · exact absurd (List.of_mem_filter (List.mem_of_mem_filter hmem)) (by decide)
    · exact absurd heq (by decide)
  · assumption

lemma seenOK_nil : seenOK [] := fun p hp => absurd hp (List.not_mem_nil p)

lemma noTF_nil : noTF [] := by intro h; exact absurd h.1 (List.not_mem_nil _)

lemma seenOK_tail {q : Nat × TySet} {rest : Seen} (hs : seenOK (q :: rest)) :
    seenOK rest := fun x hx => hs x (List.mem_cons_of_mem q hx)

lemma seenOK_setSeen : ∀ (s : Seen) (t : Nat) (v : TySet),
    seenOK s → noTF v → seenOK (setSeen s t v) := by
  intro s
  induction s with
  | nil =>
    intro t v _ hv p hp
    unfold setSeen at hp
    rw [List.mem_singleton] at hp
    subst hp
    exact hv
  | cons q rest ih =>
    obtain ⟨k, w⟩ := q
    intro t v hs hv p hp
    unfold setSeen at hp
    split at hp
    · rcases List.mem_cons.mp hp with rfl | hp'
      · exact hv
      · exact seenOK_tail hs p hp'
    · rcases List.mem_cons.mp hp with rfl | hp'
      · exact hs (k, w) (List.mem_cons_self _ _)
      · exact ih t v (seenOK_tail hs) hv p hp'

lemma seenOK_lookup : ∀ (s : Seen) (t : Nat) (v : TySet),
    seenOK s → lookupSeen s t = some v → noTF v := by
  intro s
  induction s with
  | nil => intro t v _ h; cases h
  | cons q rest ih =>
    intro t v hs h
    unfold lookupSeen at h
    split at h
    · cases h
      exact hs q (List.mem_cons_self q rest)
    · exact ih t v (seenOK_tail hs) h

/-- Insertion preserves `seenOK` when the stored set is clean. -/
lemma seenOK_insSeen {s : Seen} {v : TySet} (hs : seenOK s) (hv : noTF v)
    (tag : Option Nat) : seenOK (insSeen tag s v) := by
  cases tag with
  | none => exact hs
  | some t => exact seenOK_setSeen s t v hs hv

lemma finishRes_noTF (ctx : Ctx) (info : ExprInfo) (tys : TySet) (seen : Seen) :
    noTF (finishRes ctx info tys seen).1 :=
  noTF_collapseTF _

lemma finishRes_seenOK (ctx : Ctx) (info : ExprInfo) (tys : TySet) {seen : Seen}
    (hs : seenOK seen) : seenOK (finishRes ctx info tys seen).2 :=
  seenOK_insSeen hs (noTF_collapseTF _) info.tag

lemma seenOK_snd_of_someEq {α : Type} {x : α × Seen} {a : α} {s : Seen}
    (h : some (a, s) = some x) (hs : seenOK s) : seenOK x.2 := by
  injection h with h2
  subst h2
  exact hs

lemma pairGoal_of_someEq {x p : TySet × Seen} (h : some p = some x)
    (h1 : noTF p.1) (h2 : seenOK p.2) : noTF x.1 ∧ seenOK x.2 := by
  injection h with h3
  subst h3
  exact ⟨h1, h2⟩

set_option maxHeartbeats 8000000 in
/--
Invariant of the whole fueled resolver family: starting from a memo map
whose entries all avoid the `true`/`false` pair, every function of the
family returns a memo map with the same property, and `resolve` itself
returns a type set avoiding the pair (the collapse at the end of
`resolve` is the only place results are produced, apart from the
memoized-cycle path which returns a stored entry).
-/
lemma resolver_seenOK (fuel : Nat) :
    (∀ ctx info s r, seenOK s → resolveT fuel ctx info s = some r →
      noTF r.1 ∧ seenOK r.2)
    ∧ (∀ ctx id s r, seenOK s → resolveRefT fuel ctx id s = some r → seenOK r.2)
    ∧ (∀ ctx base index mem s r, seenOK s →
      resolveMemberT fuel ctx base index mem s = some r → seenOK r.2)
    ∧ (∀ ctx base idx index s r, seenOK s →
      resolveIndexT fuel ctx base idx index s = some r → seenOK r.2)
    ∧ (∀ ctx defs acc s r, seenOK s → resolveDefsT fuel ctx defs acc s = some r →
      seenOK r.2)
    ∧ (∀ ctx tys field isIdx acc s r, seenOK s →
      rftGoT fuel ctx tys field isIdx acc s = some r → seenOK r.2)
    ∧ (∀ ctx args s r, seenOK s → resolveReturnTypesT fuel ctx args s = some r →
      seenOK r.2)
    ∧ (∀ ctx lhs lts0 s r, seenOK s → resolveTernT fuel ctx lhs lts0 s = some r →
      seenOK r.2)
    ∧ (∀ ctx lhs rhs s r, seenOK s → resolveOrT fuel ctx lhs rhs s = some r → seenOK r.2)
    ∧ (∀ ctx lhs rhs s r, seenOK s → resolveAndT fuel ctx lhs rhs s = some r → seenOK r.2)
    ∧ (∀ ctx op args idx s r, seenOK s → resolveOpT fuel ctx op args idx s = some r →
      seenOK r.2)
    ∧ (∀ ctx stack s r, seenOK s → rtlLoopT fuel ctx stack s = some r → seenOK r.2) := by
  induction fuel with
  | zero =>
    refine ⟨?_, ?_, ?_, ?_, ?_, ?_, ?_, ?_, ?_, ?_, ?_, ?_⟩
    · intro ctx info s r _ h; rw [resolveT] at h; exact Option.noConfusion h
    · intro ctx id s r _ h; rw [resolveRefT] at h; exact Option.noConfusion h
    · intro ctx base index mem s r _ h
      rw [resolveMemberT] at h; exact Option.noConfusion h
    · intro ctx base idx index s r _ h
      rw [resolveIndexT] at h; exact Option.noConfusion h
    · intro ctx defs acc s r _ h; rw [resolveDefsT] at h; exact Option.noConfusion h
    · intro ctx tys field isIdx acc s r _ h; rw [rftGoT] at h; exact Option.noConfusion h
    · intro ctx args s r _ h; rw [resolveReturnTypesT] at h; exact Option.noConfusion h
    · intro ctx lhs lts0 s r _ h; rw [resolveTernT] at h; exact Option.noConfusion h
    · intro ctx lhs rhs s r _ h; rw [resolveOrT] at h; exact Option.noConfusion h
    · intro ctx lhs rhs s r _ h; rw [resolveAndT] at h; exact Option.noConfusion h
    · intro ctx op args idx s r _ h; rw [resolveOpT] at h; exact Option.noConfusion h
    · intro ctx stack s r _ h; rw [rtlLoopT] at h; exact Option.noConfusion h
  | succ f ih =>
    obtain ⟨ihR, ihRef, ihM, ihI, ihD, ihF, ihRT, ihTern, ihOr, ihAnd, ihOp, ihL⟩ := ih
    refine ⟨?_, ?_, ?_, ?_, ?_, ?_, ?_, ?_, ?_, ?_, ?_, ?_⟩
    · -- resolveT
      intro ctx info s r hs h
      rw [resolveT] at h
      split at h
      · -- memoized-cycle path: result is a stored entry
        rename_i existing htag
        rcases Option.bind_eq_some.mp htag with ⟨t, _, hlook⟩
        exact pairGoal_of_someEq h (seenOK_lookup s t existing hs hlook) hs
      · -- fresh visit: the info is entered into the map, the body runs
        have hs0 : seenOK (insSeen info.tag s []) := seenOK_insSeen hs noTF_nil info.tag
        -- the expression-variant switch, then the shared tail
        split at h
        · -- literal
          dsimp only at h
          exact pairGoal_of_someEq h (finishRes_noTF _ _ _ _) (finishRes_seenOK _ _ _ hs0)
        · -- operation
          dsimp only at h
          split at h
          · exact Option.noConfusion h
          · rename_i tys s1 hbody
            exact pairGoal_of_someEq h (finishRes_noTF _ _ _ _)
              (finishRes_seenOK _ _ _ (ihOp _ _ _ _ _ _ hs0 hbody))
        · -- reference
          dsimp only at h
          split at h
          · exact Option.noConfusion h
          · rename_i tys s1 hbody
            exact pairGoal_of_someEq h (finishRes_noTF _ _ _ _)
              (finishRes_seenOK _ _ _ (ihRef _ _ _ _ hs0 hbody))
        · -- member
          dsimp only at h
          split at h
          · exact Option.noConfusion h
          · rename_i tys s1 hbody
            exact pairGoal_of_someEq h (finishRes_noTF _ _ _ _)
              (finishRes_seenOK _ _ _ (ihM _ _ _ _ _ _ hs0 hbody))
        · -- index
          dsimp only at h
          split at h
          · exact Option.noConfusion h
          · rename_i tys s1 hbody
            exact pairGoal_of_someEq h (finishRes_noTF _ _ _ _)
              (finishRes_seenOK _ _ _ (ihI _ _ _ _ _ _ hs0 hbody))
        · -- require
          dsimp only at h
          exact pairGoal_of_someEq h (finishRes_noTF _ _ _ _) (finishRes_seenOK _ _ _ hs0)
    · -- resolveRefT
      intro ctx id s r hs h
      rw [resolveRefT] at h
      dsimp only at h
      split at h
      · split at h
        · exact seenOK_snd_of_someEq h hs
        · exact ihD _ _ _ _ _ hs h
      · exact ihD _ _ _ _ _ hs h
    · -- resolveMemberT
      intro ctx base index mem s r hs h
      rw [resolveMemberT] at h
      split at h
      · exact Option.noConfusion h
      · rename_i bt s2 hbase
        exact ihF _ _ _ _ _ _ _ (ihR _ _ _ _ hs hbase).2 h
    · -- resolveIndexT
      intro ctx base idx index s r hs h
      rw [resolveIndexT] at h
      split at h
      · exact Option.noConfusion h
      · rename_i bt s2 hbase
        have hs2 := (ihR _ _ _ _ hs hbase).2
        split at h
        · exact Option.noConfusion h
        · rename_i litRes s3 hloop
          have hs3 := ihL _ _ _ _ hs2 hloop
          split at h
          · split at h
            · exact seenOK_snd_of_someEq h hs3
            · exact ihF _ _ _ _ _ _ _ hs3 h
          · exact seenOK_snd_of_someEq h hs3
    · -- resolveDefsT
      intro ctx defs acc s r hs h
      match defs with
      | [] =>
        rw [resolveDefsT] at h
        exact seenOK_snd_of_someEq h hs
      | d :: rest =>
        rw [resolveDefsT] at h
        split at h
        · exact Option.noConfusion h
        · rename_i ts s1 hd
          exact ihD _ _ _ _ _ (ihR _ _ _ _ hs hd).2 h
    · -- rftGoT
      intro ctx tys field isIdx acc s r hs h
      match tys with
      | [] =>
        rw [rftGoT] at h
        exact seenOK_snd_of_someEq h hs
      | ty :: rest =>
        rw [rftGoT] at h
        dsimp only at h
        split at h
        · split at h
          · exact Option.noConfusion h
          · rename_i acc1 s1 hdefs
            exact ihF _ _ _ _ _ _ _ (ihD _ _ _ _ _ hs hdefs) h
        · exact ihF _ _ _ _ _ _ _ hs h
    · -- resolveReturnTypesT
      intro ctx args s r hs h
      rw [resolveReturnTypesT] at h
      split at h
      · exact seenOK_snd_of_someEq h hs
      · split at h
        · exact seenOK_snd_of_someEq h hs
        · split at h
          · exact Option.noConfusion h
          · rename_i ft s1 hf
            have hs1 := (ihR _ _ _ _ hs hf).2
            split at h
            · dsimp only at h
              split at h
              · split at h
                · exact seenOK_snd_of_someEq h hs1
                · exact seenOK_snd_of_someEq h hs1
              · exact seenOK_snd_of_someEq h hs1
            · exact seenOK_snd_of_someEq h hs1
    · -- resolveTernT
      intro ctx lhs lts0 s r hs h
      rw [resolveTernT] at h
      split at h
      · exact (ihR _ _ _ _ hs h).2
      · exact seenOK_snd_of_someEq h hs
    · -- resolveOrT
      intro ctx lhs rhs s r hs h
      rw [resolveOrT] at h
      split at h
      · exact Option.noConfusion h
      · rename_i lts0 s1 hl
        have hs1 := (ihR _ _ _ _ hs hl).2
        split at h
        · exact Option.noConfusion h
        · rename_i rts s2 hr
          have hs2 := (ihR _ _ _ _ hs1 hr).2
          split at h
          · exact Option.noConfusion h
          · rename_i lts s3 htern
            have hs3 : seenOK s3 := ihTern _ _ _ _ _ hs2 htern
            dsimp only at h
            split at h
            · split at h
              · exact seenOK_snd_of_someEq h hs3
              · exact seenOK_snd_of_someEq h hs3
            · split at h
              · exact seenOK_snd_of_someEq h hs3
              · exact seenOK_snd_of_someEq h hs3
    · -- resolveAndT
      intro ctx lhs rhs s r hs h
      rw [resolveAndT] at h
      split at h
      · exact Option.noConfusion h
      · rename_i lts s1 hl
        have hs1 := (ihR _ _ _ _ hs hl).2
        split at h
        · exact Option.noConfusion h
        · rename_i rts s2 hr
          have hs2 := (ihR _ _ _ _ hs1 hr).2
          dsimp only at h
          split at h
          · exact seenOK_snd_of_someEq h hs2
          · exact seenOK_snd_of_someEq h hs2
          · exact seenOK_snd_of_someEq h hs2
    · -- resolveOpT
      intro ctx op args idx s r hs h
      rw [resolveOpT] at h
      split at h
      · -- call
        split at h
        · exact Option.noConfusion h
        · rename_i rt s1 hret
          have hs1 := ihRT _ _ _ _ hs hret
          split at h
          · exact seenOK_snd_of_someEq h hs1
          · split at h
            · exact seenOK_snd_of_someEq h hs1
            · exact seenOK_snd_of_someEq h hs1
      · split at h
        · exact seenOK_snd_of_someEq h hs
        · split at h
          · exact seenOK_snd_of_someEq h hs
          · split at h
            · exact seenOK_snd_of_someEq h hs
            · split at h
              · -- not
                split at h
                · exact seenOK_snd_of_someEq h hs
                · split at h
                  · exact Option.noConfusion h
                  · rename_i at1 s1 harg
                    have hs1 := (ihR _ _ _ _ hs harg).2
                    dsimp only at h
                    split at h
                    · exact seenOK_snd_of_someEq h hs1
                    · exact seenOK_snd_of_someEq h hs1
              · split at h
                · -- or
                  split at h
                  · exact ihOr _ _ _ _ _ hs h
                  · exact seenOK_snd_of_someEq h hs
                · split at h
                  · -- and
                    split at h
                    · exact ihAnd _ _ _ _ _ hs h
                    · exact seenOK_snd_of_someEq h hs
                  · exact seenOK_snd_of_someEq h hs
    · -- rtlLoopT
      intro ctx stack s r hs h
      match stack with
      | [] =>
        rw [rtlLoopT] at h
        exact seenOK_snd_of_someEq h hs
      | info :: rest =>
        rw [rtlLoopT] at h
        split at h
        · -- literal
          split at h
          · exact seenOK_snd_of_someEq h hs
          · exact seenOK_snd_of_someEq h hs
        · -- reference
          dsimp only at h
          split at h
          · exact ihL _ _ _ _ hs h
          · exact ihL _ _ _ _ hs h
        · -- member
          split at h
          · exact Option.noConfusion h
          · rename_i mb s1 hbase
            split at h
            · dsimp only at h
              split at h
              · exact ihL _ _ _ _ hs h
              · exact ihL _ _ _ _ hs h
            · exact ihL _ _ _ _ hs h
        · -- index
          split at h
          · exact Option.noConfusion h
          · rename_i ib s1 hbase
            split at h
            · split at h
              · exact Option.noConfusion h
              · rename_i lr s2 hloop
                have hs2 := ihL _ _ _ _ hs hloop
                split at h
                · split at h
                  · exact ihL _ _ _ _ hs2 h
                  · dsimp only at h
                    split at h
                    · exact ihL _ _ _ _ hs2 h
                    · exact ihL _ _ _ _ hs2 h
                · exact ihL _ _ _ _ hs2 h
            · exact ihL _ _ _ _ hs h
        · -- operation
          split at h
          · exact Option.noConfusion h
          · rename_i ts s1 hop
            have hs1 := (ihR _ _ _ _ hs hop).2
            split at h
            · split at h
              · exact seenOK_snd_of_someEq h hs1
              · exact ihL _ _ _ _ hs1 h
            · exact ihL _ _ _ _ hs1 h
        · -- require
          exact ihL _ _ _ _ hs h

/--
C5.  For any expression info resolved from a memo map whose stored
entries avoid the pair (in particular the empty map of a fresh
top-level `resolve(E)` call), the returned type set never contains both
`true` and `false`: the final collapse replaces the pair with `boolean`,
and the memoized-cycle path only returns stored sets, which are either
the empty in-progress set or an already collapsed result.
-/
theorem c5_boolean_collapse (fuel : Nat) (ctx : Ctx) (info : ExprInfo) (s : Seen)
    (ts : TySet) (s' : Seen) (hs : seenOK s)
    (h : resolveT fuel ctx info s = some (ts, s')) :
    ¬("true" ∈ ts ∧ "false" ∈ ts) :=
  ((resolver_seenOK fuel).1 ctx info s (ts, s') hs h).1

/--
Witness for C5: resolving the literal-only operation `true or false`
from the empty memo map yields `{boolean}`, which avoids the pair.
-/
theorem c5_witness :
    ¬("true" ∈ (["boolean"] : TySet) ∧ "false" ∈ (["boolean"] : TySet)) :=
  c5_boolean_collapse 10 {}
    (mkInfo (.operation "or" [mkLit "boolean" (some "true"), mkLit "boolean" (some "false")]))
    [] ["boolean"] [] seenOK_nil (by rfl)

lemma mem_unionT : ∀ (r l : TySet) (x : String), x ∈ unionT l r ↔ x ∈ l ∨ x ∈ r := by
  intro r
  induction r with
  | nil => simp [unionT]
  | cons a as ih =>
    intro l x
    show x ∈ unionT (addT l a) as ↔ _
    rw [ih (addT l a) x]
    simp only [mem_addT, List.mem_cons]
    tauto

lemma mem_dedupT (r : TySet) (x : String) : x ∈ dedupT r ↔ x ∈ r := by
  rw [dedupT, mem_unionT]
  simp

/--
C4.  Short-circuit truthiness of `or` and `and` in
`TypeResolver.resolveOperationTypes`, relative to the resolutions of the
operands (`lts` for the left, `rts` for the right, `lts2` for the
ternary-substituted left operand) when the left operand is a
literals-only expression:
* `or` with literal-falsy left operand returns exactly the right
  operand's types;
* `or` with literal-truthy or undetermined left operand returns the
  union of both sides;
* `and` returns the right operand's types when the left is
  literal-truthy, the left operand's types when literal-falsy, and the
  union when undetermined;
* the ternary shape `X and Y or Z` substitutes `Y` for the left operand;
* the `dedupT`/`unionT` results are, as sets, the right operand's types
  and the union of both sides respectively.
-/
theorem c4_short_circuit_truthiness (fuel : Nat) (ctx : Ctx) (lhs rhs : LuaExpression)
    (s s1 s2 s3 : Seen) (lts rts lts2 : TySet)
    (hl : resolveT fuel ctx (mkInfo lhs) s = some (lts, s1))
    (hr : resolveT fuel ctx (mkInfo rhs) s1 = some (rts, s2))
    (htern : resolveTernT fuel ctx lhs lts s2 = some (lts2, s3))
    (hlit : isLiteralOperation lhs = true) :
    (getTruthiness lts2 = some false →
      resolveOrT (fuel + 1) ctx lhs rhs s = some (dedupT rts, s3))
    ∧ (getTruthiness lts2 ≠ some false →
      resolveOrT (fuel + 1) ctx lhs rhs s = some (unionT (dedupT rts) lts2, s3))
    ∧ (getTruthiness lts = some true →
      resolveAndT (fuel + 1) ctx lhs rhs s = some (dedupT rts, s2))
    ∧ (getTruthiness lts = some false →
      resolveAndT (fuel + 1) ctx lhs rhs s = some (dedupT lts, s2))
    ∧ (getTruthiness lts = none →
      resolveAndT (fuel + 1) ctx lhs rhs s = some (unionT (dedupT lts) rts, s2))
    ∧ (∀ x y, ternaryArg (.operation "and" [x, y]) = some y)
    ∧ (∀ x, x ∈ dedupT rts ↔ x ∈ rts)
    ∧ (∀ x, x ∈ unionT (dedupT rts) lts2 ↔ x ∈ rts ∨ x ∈ lts2) := by
  refine ⟨?_, ?_, ?_, ?_, ?_, ?_, ?_, ?_⟩
  · intro htruth
    rw [resolveOrT, hl]
    dsimp only
    rw [hr]
    dsimp only
    rw [htern]
    dsimp only
    rw [hlit, htruth]
    simp
  · intro htruth
    rw [resolveOrT, hl]
    dsimp only
    rw [hr]
    dsimp only
    rw [htern]
    dsimp only
    rw [hlit]
    simp only [if_true]
    rw [if_neg htruth]
  · intro htruth
    rw [resolveAndT, hl]
    dsimp only
    rw [hr]
    dsimp only
    rw [hlit, htruth]
    rfl
  · intro htruth
    rw [resolveAndT, hl]
    dsimp only
    rw [hr]
    dsimp only
    rw [hlit, htruth]
    rfl
  · intro htruth
    rw [resolveAndT, hl]
    dsimp only
    rw [hr]
    dsimp only
    rw [hlit, htruth]
    rfl
  · intro x y
    rfl
  · intro x
    exact mem_dedupT rts x
  · intro x
    rw [mem_unionT, mem_dedupT]

/--
Witness for C4: `false or "literal string"` resolves to exactly the
right operand's types by the literal-falsy branch of the theorem.
-/
theorem c4_witness :
    resolveOrT 6 {} (mkLit "boolean" (some "false")) (mkLit "string" none) []
      = some (["string"], []) :=
  (c4_short_circuit_truthiness 5 {} (mkLit "boolean" (some "false"))
    (mkLit "string" none) [] [] [] [] ["false"] ["string"] ["false"]
    rfl rfl rfl rfl).1 (by decide)

lemma mem_delT {l : TySet} {x t : String} : t ∈ delT l x ↔ t ∈ l ∧ t ≠ x := by
  simp [delT]

set_option maxHeartbeats 1600000 in
/--
C6.  Usage masks in `AnalysisContext`:
(1) each `addUsage` call replaces the stored mask (which starts from the
    5-element universe) by its restriction to the types permitted by the
    recorded usage kinds, so composition is monotone intersection;
(2) through (6): within the universe, concatenation keeps only
    `string`/`number`, indexing or length keeps `string`/`table`,
    index-assignment keeps `table`, arithmetic or a numeric `for` keeps
    `number`, and calling keeps `function`;
(7) the argument-analysis half of `addUsage` never touches the masks;
(8) through (11): `getUsageTypes` returns nothing exactly when the
    stored mask is missing, empty, or full (5 elements, in particular
    the untouched universe).
-/
theorem c6_usage_mask_monotone (ctx : Ctx) (item : UsageItem) :
    (∀ t, t ∈ newMask ctx item ↔
      t ∈ (lookupUsage ctx.usageTypes item.expression).getD usageUniverse
        ∧ usageKeeps item t = true)
    ∧ (item.supportsConcatenation = true →
        ∀ t ∈ newMask ctx item, t ∈ usageUniverse → t = "string" ∨ t = "number")
    ∧ ((item.supportsIndexing = true ∨ item.supportsLength = true) →
        ∀ t ∈ newMask ctx item, t ∈ usageUniverse → t = "string" ∨ t = "table")
    ∧ (item.supportsIndexAssignment = true →
        ∀ t ∈ newMask ctx item, t ∈ usageUniverse → t = "table")
    ∧ ((item.supportsMath = true ∨ item.inNumericFor = true) →
        ∀ t ∈ newMask ctx item, t ∈ usageUniverse → t = "number")
    ∧ (item.arguments.isSome = true →
        ∀ t ∈ newMask ctx item, t ∈ usageUniverse → t = "function")
    ∧ (∀ fuel ctx2 ctx2', addUsageArgsT fuel ctx2 item = some ctx2' →
        ctx2'.usageTypes = ctx2.usageTypes)
    ∧ (lookupUsage ctx.usageTypes item.expression = none →
        getUsageTypes ctx item.expression = none)
    ∧ (lookupUsage ctx.usageTypes item.expression = some [] →
        getUsageTypes ctx item.expression = none)
    ∧ (lookupUsage ctx.usageTypes item.expression = some usageUniverse →
        getUsageTypes ctx item.expression = none)
    ∧ (∀ u, lookupUsage ctx.usageTypes item.expression = some u →
        0 < u.length → u.length < 5 → getUsageTypes ctx item.expression = some u) := by
  have hmem : ∀ t, t ∈ newMask ctx item ↔
      t ∈ (lookupUsage ctx.usageTypes item.expression).getD usageUniverse
        ∧ usageKeeps item t = true := by
    intro t
    unfold newMask usageKeeps
    generalize (lookupUsage ctx.usageTypes item.expression).getD usageUniverse = u0
    cases h1 : item.supportsConcatenation <;>
      cases h2 : item.supportsIndexing || item.supportsLength <;>
      cases h3 : item.supportsIndexAssignment <;>
      cases h4 : item.supportsMath || item.inNumericFor <;>
      cases h5 : item.arguments <;>
      simp only [h1, h2, h3, h4, h5, if_true, if_false, Bool.not_true, Bool.not_false,
        Option.isNone_none, Option.isNone_some, Bool.false_and, Bool.true_and,
        Bool.and_true, Bool.false_or, Bool.true_or, Bool.or_false, Bool.or_true,
        mem_delT, decide_eq_true_eq, Bool.and_eq_true, Bool.or_eq_true] <;>
      simp_all [mem_delT] <;> tauto
  refine ⟨hmem, ?_, ?_, ?_, ?_, ?_, ?_, ?_, ?_, ?_, ?_⟩
  · intro hc t ht hu
    have hk := ((hmem t).mp ht).2
    rw [usageKeeps] at hk
    simp only [Bool.and_eq_true] at hk
    have hd := hk.1.1.1.1
    rw [hc] at hd
    simp only [Bool.not_true, Bool.false_or, decide_eq_true_eq] at hd
    simp [usageUniverse] at hu
    rcases hu with rfl | rfl | rfl | rfl | rfl
    · exact absurd rfl hd.1
    · exact absurd rfl hd.2.1
    · right; rfl
    · left; rfl
    · exact absurd rfl hd.2.2
  · intro hc t ht hu
    have hk := ((hmem t).mp ht).2
    have hb : (item.supportsIndexing || item.supportsLength) = true := by
      rcases hc with h | h <;> simp [h]
    rw [usageKeeps] at hk
    simp only [Bool.and_eq_true] at hk
    have hd := hk.1.1.1.2
    rw [hb] at hd
    simp only [Bool.not_true, Bool.false_or, decide_eq_true_eq] at hd
    simp [usageUniverse] at hu
    rcases hu with rfl | rfl | rfl | rfl | rfl
    · exact absurd rfl hd.1
    · exact absurd rfl hd.2.1
    · exact absurd rfl hd.2.2
    · left; rfl
    · right; rfl
  · intro hc t ht hu
    have hk := ((hmem t).mp ht).2
    rw [usageKeeps] at hk
    simp only [Bool.and_eq_true] at hk
    have hd := hk.1.1.2
    rw [hc] at hd
    simp only [Bool.not_true, Bool.false_or, decide_eq_true_eq] at hd
    simp [usageUniverse] at hu
    rcases hu with rfl | rfl | rfl | rfl | rfl
    · exact absurd rfl hd.1
    · exact absurd rfl hd.2.1
    · exact absurd rfl hd.2.2.1
    · exact absurd rfl hd.2.2.2
    · rfl
  · intro hc t ht hu
    have hk := ((hmem t).mp ht).2
    have hb : (item.supportsMath || item.inNumericFor) = true := by
      rcases hc with h | h <;> simp [h]
    rw [usageKeeps] at hk
    simp only [Bool.and_eq_true] at hk
    have hd := hk.1.2
    rw [hb] at hd
    simp only [Bool.not_true, Bool.false_or, decide_eq_true_eq] at hd
    simp [usageUniverse] at hu
    rcases hu with rfl | rfl | rfl | rfl | rfl
    · exact absurd rfl hd.1
    · exact absurd rfl hd.2.1
    · rfl
    · exact absurd rfl hd.2.2.1
    · exact absurd rfl hd.2.2.2
  · intro hc t ht hu
    have hk := ((hmem t).mp ht).2
    have hb : item.arguments.isNone = false := by
      rcases h : item.arguments with _ | v
      · rw [h] at hc; cases hc
      · rfl
    rw [usageKeeps] at hk
    simp only [Bool.and_eq_true] at hk
    have hd := hk.2
    rw [hb] at hd
    simp only [Bool.false_or, decide_eq_true_eq] at hd
    simp [usageUniverse] at hu
    rcases hu with rfl | rfl | rfl | rfl | rfl
    · exact absurd rfl hd.1
    · rfl
    · exact absurd rfl hd.2.1
    · exact absurd rfl hd.2.2.1
    · exact absurd rfl hd.2.2.2
  · intro fuel ctx2 ctx2' h
    unfold addUsageArgsT at h
    split at h
    · injection h with h2
      subst h2
      rfl
    · split at h
      · exact Option.noConfusion h
      · split at h
        · split at h
          · dsimp only at h
            split at h
            · exact Option.noConfusion h
            · have h2 := Option.some.inj h
              subst h2
              rfl
          · have h2 := Option.some.inj h
            subst h2
            rfl
        · have h2 := Option.some.inj h
          subst h2
          rfl
  · intro hmiss
    unfold getUsageTypes
    rw [hmiss]
  · intro hempty
    unfold getUsageTypes
    rw [hempty]
    rfl
  · intro hfull
    unfold getUsageTypes
    rw [hfull]
    rfl
  · intro u hu h0 h5
    unfold getUsageTypes
    rw [hu]
    have h : ¬(u.length = 0 ∨ u.length = 5) := by omega
    dsimp only
    rw [if_neg h]

/--
Witness for C6: an index-assignment usage recorded against an untouched
mask leaves exactly `table`; `getUsageTypes` on a missing mask is
absent.
-/
theorem c6_witness :
    ("table" ∈ newMask {} { expression := .reference "x", supportsIndexAssignment := true }
      ↔ "table" ∈ usageUniverse
          ∧ usageKeeps { expression := .reference "x", supportsIndexAssignment := true }
              "table" = true)
    ∧ getUsageTypes {} (.reference "x") = none :=
  ⟨(c6_usage_mask_monotone {}
      { expression := .reference "x", supportsIndexAssignment := true }).1 "table",
    (c6_usage_mask_monotone {}
      { expression := .reference "x", supportsIndexAssignment := true }).2.2.2.2.2.2.2.1 rfl⟩

/--
C7 counterexample.  With two registered modules `a/m` and `b/m` and the
alias `m → {a/m, b/m}`, `getModule("m", true)` does not yield "no
module": it takes the first identifier of the alias set and returns the
module of `a/m`, and a require through the alias resolves to that
module's return types rather than the empty set.
-/
theorem c7_counterexample :
    ctxAlias.aliasMap = [("m", ["a/m", "b/m"])]
    ∧ getModule ctxAlias "m" true = some { returns := [{ types := ["string"] }] }
    ∧ requireTypes ctxAlias "m" none = ["string"] :=
  ⟨rfl, rfl, rfl⟩

/--
C7 (amended).  `AnalysisContext.getModule` consults the alias map only
after the direct lookup fails, and an alias entry mapping to several
full identifiers is not ignored: the lookup uses the first identifier in
the set's insertion order, so a require through such an alias resolves
to the first candidate module.
-/
theorem c7_alias_first_candidate (ctx : Ctx) (name : String) :
    (∀ m, alook ctx.modules name = some m → getModule ctx name true = some m)
    ∧ (alook ctx.modules name = none → alook ctx.aliasMap name = none →
        getModule ctx name true = none)
    ∧ (∀ e1 rest, alook ctx.modules name = none →
        alook ctx.aliasMap name = some (e1 :: rest) →
        getModule ctx name true = alook ctx.modules e1)
    ∧ (alook ctx.modules name = none → alook ctx.aliasMap name = some [] →
        getModule ctx name true = none)
    ∧ (alook ctx.modules name = none → getModule ctx name false = none) := by
  refine ⟨?_, ?_, ?_, ?_, ?_⟩
  · intro m hm
    unfold getModule
    rw [hm]
  · intro hm ha
    unfold getModule
    rw [hm, ha]
    rfl
  · intro e1 rest hm ha
    unfold getModule
    rw [hm, ha]
    rfl
  · intro hm ha
    unfold getModule
    rw [hm, ha]
    rfl
  · intro hm
    unfold getModule
    rw [hm]
    rfl

/--
Witness for amended C7: in the two-module context the lookup through the
ambiguous alias returns the first candidate's module.
-/
theorem c7_witness :
    getModule ctxAlias "m" true = alook ctxAlias.modules "a/m" :=
  (c7_alias_first_candidate ctxAlias "m").2.2.1 "a/m" ["b/m"] rfl rfl

/-- `hasStr` is list membership. -/
theorem hasStr_iff_mem : ∀ (l : List String) (x : String), hasStr l x = true ↔ x ∈ l
  | [], x => by simp [hasStr]
  | y :: rest, x => by
    simp only [hasStr, List.mem_cons]
    by_cases h : x = y <;> simp [h, hasStr_iff_mem rest x]

/-- Every identifier analyzed by `readLoop` comes from the input list. -/
theorem readLoop_subset (readOk : String → Bool) :
    ∀ (l fs : List String) (x : String), x ∈ readLoop readOk fs l → x ∈ l
  | [], _, x => by simp [readLoop]
  | id :: rest, fs, x => by
    simp only [readLoop]
    by_cases h1 : hasStr fs id = true
    · simp only [h1, if_true]
      intro h
      exact List.mem_cons_of_mem _ (readLoop_subset readOk rest fs x h)
    · simp only [h1, if_false, Bool.false_eq_true]
      by_cases h2 : readOk id = true
      · simp only [h2, if_true, List.mem_cons]
        intro h
        rcases h with rfl | h
        · exact Or.inl rfl
        · exact Or.inr (readLoop_subset readOk rest (id :: fs) x h)
      · simp only [h2, if_false, Bool.false_eq_true]
        intro h
        exact List.mem_cons_of_mem _ (readLoop_subset readOk rest (id :: fs) x h)

/--
`readLoop` computes the first occurrences of the successfully read
identifiers: the file set and the dedup seen-set may differ on
identifiers whose read fails, since those never pass the filter.
-/
theorem readLoop_eq_dedupFirst (readOk : String → Bool) :
    ∀ (l fs seen : List String),
      (∀ id, readOk id = true → hasStr fs id = hasStr seen id) →
      readLoop readOk fs l = dedupFirst seen (l.filter readOk)
  | [], _, _, _ => by simp [readLoop, dedupFirst]
  | id :: rest, fs, seen, hinv => by
    by_cases hok : readOk id = true
    · have hmem : hasStr fs id = hasStr seen id := hinv id hok
      by_cases hin : hasStr fs id = true
      · simp only [readLoop, hin, if_true, List.filter_cons, hok, dedupFirst,
          hmem ▸ hin]
        exact readLoop_eq_dedupFirst readOk rest fs seen hinv
      · have hin2 : hasStr seen id = true → False := fun h => hin (hmem ▸ h)
        simp only [readLoop, hin, if_false, Bool.false_eq_true, hok, if_true,
          List.filter_cons, dedupFirst, eq_false hin2]
        refine congrArg (List.cons id)
          (readLoop_eq_dedupFirst readOk rest (id :: fs) (id :: seen) ?_)
        intro id2 h2
        simp only [hasStr]
        by_cases he : id2 = id <;> simp [he, hinv id2 h2]
    · have hokf : readOk id = false := by
        cases h : readOk id
        · rfl
        · exact absurd h hok
      by_cases hin : hasStr fs id = true
      · simp only [readLoop, hin, if_true, List.filter_cons, hokf,
          Bool.false_eq_true, if_false]
        exact readLoop_eq_dedupFirst readOk rest fs seen hinv
      · simp only [readLoop, hin, if_false, Bool.false_eq_true, hokf, if_true,
          List.filter_cons]
        refine readLoop_eq_dedupFirst readOk rest (id :: fs) seen ?_
        intro id2 h2
        have hne : id2 = id → False := fun he => by
          rw [he] at h2
          rw [h2] at hokf
          exact Bool.noConfusion hokf
        simp only [hasStr]
        rw [if_neg hne]
        exact hinv id2 h2

/--
Filtering by a predicate that holds wherever the map is defined does not
change a `filterMap`.
-/
theorem filterMap_filter_of_none {α : Type} (f : String → Option α) (p : String → Bool)
    (h : ∀ x, f x ≠ none → p x = true) :
    ∀ l : List String, l.filterMap f = (l.filter p).filterMap f
  | [] => rfl
  | x :: rest => by
    by_cases hp : p x = true
    · simp only [List.filter_cons, hp, if_true, List.filterMap_cons]
      cases hf : f x <;>
        simp [hf, filterMap_filter_of_none f p h rest]
    · have hfx : f x = none := by
        by_contra hne
        exact hp (h x hne)
      simp [List.filter_cons, hp, List.filterMap_cons, hfx,
        filterMap_filter_of_none f p h rest]

/--
C8.  `Analyzer.read` skips an identifier already in the file set (the
duplicate check throws before the identifier is re-added) and a module
whose read fails, and in both cases continues with the remaining
identifiers; the analyzed identifiers are exactly the first occurrences
of the identifiers whose read succeeds, in input order; and when the
finalized module map is defined exactly on the analyzed identifiers, the
returned modules are the modules of the analyzed identifiers among the
input, in input order, with every analyzed module present in the result.
-/
theorem c8_read_skips_and_continues {α : Type} (readOk : String → Bool)
    (ids : List String) (moduleMap : String → Option α)
    (hdom : ∀ id, moduleMap id ≠ none ↔ id ∈ readLoop readOk [] ids) :
    readLoop readOk [] ids = dedupFirst [] (ids.filter readOk)
    ∧ (∀ fs id rest, hasStr fs id = true →
        readLoop readOk fs (id :: rest) = readLoop readOk fs rest)
    ∧ (∀ fs id rest, hasStr fs id = false → readOk id = false →
        readLoop readOk fs (id :: rest) = readLoop readOk (id :: fs) rest)
    ∧ readResult moduleMap ids
        = (ids.filter (fun id => hasStr (readLoop readOk [] ids) id)).filterMap
            moduleMap
    ∧ (∀ id ∈ readLoop readOk [] ids,
        ∃ m, moduleMap id = some m ∧ m ∈ readResult moduleMap ids) := by
  refine ⟨?_, ?_, ?_, ?_, ?_⟩
  · exact readLoop_eq_dedupFirst readOk ids [] [] (fun _ _ => rfl)
  · intro fs id rest h
    simp [readLoop, h]
  · intro fs id rest h1 h2
    simp [readLoop, h1, h2]
  · exact filterMap_filter_of_none moduleMap _
      (fun x hx => (hasStr_iff_mem _ _).mpr ((hdom x).mp hx)) ids
  · intro id hid
    rcases hm : moduleMap id with _ | m
    · exact absurd hm ((hdom id).mpr hid)
    · refine ⟨m, rfl, ?_⟩
      unfold readResult
      exact List.mem_filterMap.mpr ⟨id, readLoop_subset readOk ids [] id hid, hm⟩

/--
Witness for C8: identifiers `a, b, a, c` where reading `b` fails; the
analysis pass keeps the first `a` and `c`, and with a module map defined
on exactly those the result holds each analyzed module.
-/
theorem c8_witness :
    readLoop (fun id => !(id == "b")) [] ["a", "b", "a", "c"]
      = dedupFirst [] ((["a", "b", "a", "c"]).filter (fun id => !(id == "b")))
    ∧ (∀ id ∈ readLoop (fun id => !(id == "b")) [] ["a", "b", "a", "c"],
        ∃ m, (fun id => if id = "a" then some 1 else if id = "c" then some 2
                else (none : Option Nat)) id = some m
          ∧ m ∈ readResult
              (fun id => if id = "a" then some 1 else if id = "c" then some 2
                else (none : Option Nat))
              ["a", "b", "a", "c"]) := by
  have hdom : ∀ id, (fun id => if id = "a" then some 1 else if id = "c" then some 2
      else (none : Option Nat)) id ≠ none
        ↔ id ∈ readLoop (fun id => !(id == "b")) [] ["a", "b", "a", "c"] := by
    intro id
    have hrl : readLoop (fun id => !(id == "b")) [] ["a", "b", "a", "c"]
        = ["a", "c"] := rfl
    rw [hrl]
    by_cases h1 : id = "a"
    · simp [h1]
    · by_cases h2 : id = "c" <;> simp [h1, h2]
  exact ⟨(c8_read_skips_and_continues (fun id => !(id == "b")) ["a", "b", "a", "c"]
      _ hdom).1,
    (c8_read_skips_and_continues (fun id => !(id == "b")) ["a", "b", "a", "c"]
      _ hdom).2.2.2.2⟩

/--
C10.  `isEmptyClass` holds exactly when the eight inspected lists —
fields, literal fields, static fields, functions, methods, constructors,
function constructors and overloads — are empty; it never reads
`setterFields`, and consequently the empty-class skip in `finalize`
treats a class identically whatever its setter fields, so a class
defined by another module to which the current module contributed only
setter fields is skipped.
-/
theorem c10_empty_class_ignores_setters (cls : AnalyzedClassR) (cur : String) :
    (isEmptyClass cls = true ↔
      cls.fields = [] ∧ cls.literalFields = [] ∧ cls.staticFields = [] ∧
      cls.functions = [] ∧ cls.methods = [] ∧ cls.constructors = [] ∧
      cls.functionConstructors = [] ∧ cls.overloads = [])
    ∧ (∀ sf, isEmptyClass { cls with setterFields := sf } = isEmptyClass cls)
    ∧ (∀ sf, skipsEmptyClass cur { cls with setterFields := sf }
        = skipsEmptyClass cur cls)
    ∧ (skipsEmptyClass cur cls = true ↔
        cls.definingModule ≠ "" ∧ cls.definingModule ≠ cur ∧
          isEmptyClass cls = true) := by
  refine ⟨?_, fun _ => rfl, fun _ => rfl, ?_⟩
  · simp only [isEmptyClass, Bool.and_eq_true, beq_iff_eq, List.length_eq_zero]
    tauto
  · simp [skipsEmptyClass, Bool.and_eq_true, beq_iff_eq, Bool.not_eq_true,
      beq_eq_false_iff_ne, and_assoc]

/- C9 helper lemmas: the pruning order. -/

/-- `ClassLE` is reflexive. -/
theorem ClassLE_refl (c : AnalyzedClassR) : ClassLE c c :=
  ⟨rfl, fun _ hf => hf⟩

/-- `ClassLE` is transitive. -/
theorem ClassLE_trans {a b c : AnalyzedClassR} (h1 : ClassLE a b)
    (h2 : ClassLE b c) : ClassLE a c :=
  ⟨h1.1.trans h2.1, fun f hf => h2.2 f (h1.2 f hf)⟩

/-- `GroupLE` is reflexive. -/
theorem GroupLE_refl : ∀ g : List AnalyzedClassR, GroupLE g g
  | [] => List.Forall₂.nil
  | c :: rest => List.Forall₂.cons (ClassLE_refl c) (GroupLE_refl rest)

/-- `GroupLE` is transitive. -/
theorem GroupLE_trans {a b : List AnalyzedClassR} (h1 : GroupLE a b) :
    ∀ {c}, GroupLE b c → GroupLE a c := by
  induction h1 with
  | nil => intro c h2; cases h2; exact List.Forall₂.nil
  | cons hab h1 ih =>
    intro c h2
    cases h2 with
    | cons hbc h2 => exact List.Forall₂.cons (ClassLE_trans hab hbc) (ih h2)

/-- `MapLE` is reflexive. -/
theorem MapLE_refl : ∀ m : ClsMap, MapLE m m
  | [] => List.Forall₂.nil
  | p :: rest => List.Forall₂.cons ⟨rfl, GroupLE_refl p.2⟩ (MapLE_refl rest)

/-- `MapLE` is transitive. -/
theorem MapLE_trans {a b : ClsMap} (h1 : MapLE a b) :
    ∀ {c}, MapLE b c → MapLE a c := by
  induction h1 with
  | nil => intro c h2; cases h2; exact List.Forall₂.nil
  | cons hab h1 ih =>
    intro c h2
    cases h2 with
    | cons hbc h2 =>
      exact List.Forall₂.cons ⟨hab.1.trans hbc.1, GroupLE_trans hab.2 hbc.2⟩
        (ih h2)

/-- Lookups through `MapLE`: same domain, pointwise smaller groups. -/
theorem MapLE_alook {m2 m : ClsMap} (h : MapLE m2 m) :
    ∀ k, (alook m2 k = none ↔ alook m k = none)
      ∧ (∀ g2, alook m2 k = some g2 → ∃ g, alook m k = some g ∧ GroupLE g2 g) := by
  induction h with
  | nil => intro k; exact ⟨Iff.rfl, fun g2 h2 => Option.noConfusion h2⟩
  | @cons p q t2 t hpq h ih =>
    intro k
    by_cases hk : p.1 = k
    · constructor
      · simp [alook, hk, hpq.1 ▸ hk]
      · intro g2 h2
        simp only [alook, if_pos hk] at h2
        refine ⟨q.2, ?_, ?_⟩
        · simp [alook, hpq.1 ▸ hk]
        · injection h2 with h3
          exact h3 ▸ hpq.2
    · have hk2 : q.1 = k → False := fun he => hk (hpq.1.trans he)
      constructor
      · simp only [alook, if_neg hk, if_neg hk2]
        exact (ih k).1
      · intro g2 h2
        simp only [alook, if_neg hk] at h2
        obtain ⟨g, hg, hle⟩ := (ih k).2 g2 h2
        exact ⟨g, by simp only [alook, if_neg hk2]; exact hg, hle⟩

/-- A present key stays present: helper to recover keys from lookups. -/
theorem alook_mem_keys {β : Type} :
    ∀ (m : List (String × β)) (k : String) (g : β),
      alook m k = some g → k ∈ m.map Prod.fst
  | [], _, _, h => Option.noConfusion h
  | p :: rest, k, g, h => by
    by_cases hk : p.1 = k
    · simp [hk]
    · simp only [alook, if_neg hk] at h
      simp only [List.map_cons, List.mem_cons]
      exact Or.inr (alook_mem_keys rest k g h)

/-- `setCls` leaves other keys untouched. -/
theorem alook_setCls_ne :
    ∀ (m : ClsMap) (k : String) (g : List AnalyzedClassR) (k2 : String),
      k2 ≠ k → alook (setCls m k g) k2 = alook m k2
  | [], _, _, _, _ => rfl
  | p :: rest, k, g, k2, hne => by
    by_cases hk : p.1 = k
    · simp only [setCls]
      rw [if_pos hk]
      simp only [alook]
      rw [if_neg (fun h => hne (h ▸ hk.symm).symm), if_neg (fun h => hne (h ▸ hk.symm).symm)]
    · simp only [setCls]
      rw [if_neg hk]
      simp only [alook]
      by_cases hk2 : p.1 = k2
      · rw [if_pos hk2, if_pos hk2]
      · rw [if_neg hk2, if_neg hk2]
        exact alook_setCls_ne rest k g k2 hne

/-- `setCls` replaces the stored group when the key is present. -/
theorem alook_setCls_self :
    ∀ (m : ClsMap) (k : String) (g0 g : List AnalyzedClassR),
      alook m k = some g0 → alook (setCls m k g) k = some g
  | [], _, _, _, h => Option.noConfusion h
  | p :: rest, k, g0, g, h => by
    by_cases hk : p.1 = k
    · simp only [setCls]
      rw [if_pos hk]
      simp only [alook]
      rw [if_pos hk]
    · simp only [alook, if_neg hk] at h
      simp only [setCls]
      rw [if_neg hk]
      simp only [alook]
      rw [if_neg hk]
      exact alook_setCls_self rest k g0 g h

/-- Writing back the stored group is the identity. -/
theorem setCls_self :
    ∀ (m : ClsMap) (k : String) (g : List AnalyzedClassR),
      alook m k = some g → setCls m k g = m
  | [], _, _, h => Option.noConfusion h
  | p :: rest, k, g, h => by
    by_cases hk : p.1 = k
    · simp only [alook, if_pos hk] at h
      simp only [setCls]
      rw [if_pos hk]
      injection h with h2
      rw [← h2]
    · simp only [alook, if_neg hk] at h
      simp only [setCls]
      rw [if_neg hk, setCls_self rest k g h]

/-- Setting an index to the element already there is the identity. -/
theorem listSet_self {α : Type} :
    ∀ (l : List α) (i : Nat) (a : α), l.get? i = some a → l.set i a = l
  | [], _, _, h => Option.noConfusion h
  | x :: rest, 0, a, h => by
    injection h with h2
    rw [List.set]
    rw [h2]
  | x :: rest, i + 1, a, h => by
    rw [List.set]
    rw [listSet_self rest i a h]

/-- Setting a pruned class at a held index shrinks the group. -/
theorem GroupLE_set :
    ∀ (g : List AnalyzedClassR) (i : Nat) (cls cls2 : AnalyzedClassR),
      g.get? i = some cls → ClassLE cls2 cls → GroupLE (g.set i cls2) g
  | [], _, _, _, h, _ => Option.noConfusion h
  | x :: rest, 0, cls, cls2, h, hle => by
    injection h with h2
    rw [List.set]
    exact List.Forall₂.cons (h2 ▸ hle) (GroupLE_refl rest)
  | x :: rest, i + 1, cls, cls2, h, hle => by
    rw [List.set]
    exact List.Forall₂.cons (ClassLE_refl x) (GroupLE_set rest i cls cls2 h hle)

/-- Writing a pruned group back shrinks the map. -/
theorem MapLE_setCls :
    ∀ (m : ClsMap) (k : String) (g g2 : List AnalyzedClassR),
      alook m k = some g → GroupLE g2 g → MapLE (setCls m k g2) m
  | [], _, _, _, h, _ => Option.noConfusion h
  | p :: rest, k, g, g2, h, hle => by
    by_cases hk : p.1 = k
    · simp only [alook, if_pos hk] at h
      simp only [setCls]
      rw [if_pos hk]
      injection h with h2
      exact List.Forall₂.cons ⟨rfl, h2.symm ▸ hle⟩ (MapLE_refl rest)
    · simp only [alook, if_neg hk] at h
      simp only [setCls]
      rw [if_neg hk]
      exact List.Forall₂.cons ⟨rfl, GroupLE_refl p.2⟩
        (MapLE_setCls rest k g g2 h hle)

/-- A found first field belongs to the list and carries the name. -/
theorem firstField_mem :
    ∀ (l : List AnalyzedFieldR) (n : String) (f : AnalyzedFieldR),
      firstField l n = some f → f ∈ l ∧ f.name = n
  | [], _, _, h => Option.noConfusion h
  | g :: rest, n, f, h => by
    by_cases hn : g.name = n
    · simp only [firstField, if_pos hn] at h
      injection h with h2
      exact ⟨h2 ▸ List.mem_cons_self g rest, h2 ▸ hn⟩
    · simp only [firstField, if_neg hn] at h
      have := firstField_mem rest n f h
      exact ⟨List.mem_cons_of_mem g this.1, this.2⟩

/-- A present name has a first field. -/
theorem firstField_of_mem :
    ∀ (l : List AnalyzedFieldR) (x : AnalyzedFieldR), x ∈ l →
      ∃ f, firstField l x.name = some f
  | [], x, h => absurd h (List.not_mem_nil x)
  | g :: rest, x, h => by
    by_cases hn : g.name = x.name
    · exact ⟨g, by simp [firstField, hn]⟩
    · rcases List.mem_cons.mp h with rfl | h2
      · exact absurd rfl hn
      · obtain ⟨f, hf⟩ := firstField_of_mem rest x h2
        exact ⟨f, by simp only [firstField, if_neg hn]; exact hf⟩

/-- Filtering fields of other names does not change the first field. -/
theorem firstField_filter (p : AnalyzedFieldR → Bool) :
    ∀ (l : List AnalyzedFieldR) (n : String),
      (∀ x ∈ l, x.name = n → p x = true) →
      firstField (l.filter p) n = firstField l n
  | [], _, _ => rfl
  | g :: rest, n, h => by
    by_cases hn : g.name = n
    · have hp : p g = true := h g (List.mem_cons_self g rest) hn
      rw [List.filter_cons, if_pos hp]
      simp only [firstField, if_pos hn]
    · have hrest : ∀ x ∈ rest, x.name = n → p x = true :=
        fun x hx => h x (List.mem_cons_of_mem g hx)
      rw [List.filter_cons]
      by_cases hp : p g = true
      · rw [if_pos hp]
        simp only [firstField, if_neg hn]
        exact firstField_filter p rest n hrest
      · rw [if_neg hp]
        simp only [firstField, if_neg hn]
        exact firstField_filter p rest n hrest

/-- A list on which membership is everywhere false is empty. -/
theorem hasStr_all_false :
    ∀ tr : List String, (∀ n, hasStr tr n = false) → tr = []
  | [], _ => rfl
  | x :: rest, h => by
    have := h x
    simp [hasStr] at this

/-- The first `extends` of a group is stable under pruning. -/
theorem GroupLE_firstBase {g2 g : List AnalyzedClassR} (h : GroupLE g2 g) :
    firstBase g2 = firstBase g := by
  induction h with
  | nil => rfl
  | @cons d2 d t2 t hc h ih =>
    simp only [firstBase]
    rw [hc.1]
    cases d.extendsB with
    | none => exact ih
    | some s => rfl

/-- A field match in a pruned group is a match in the original group. -/
theorem GroupLE_groupHasMatch {g2 g : List AnalyzedClassR} (h : GroupLE g2 g)
    (f : AnalyzedFieldR) (hm : groupHasMatch f g2 = true) :
    groupHasMatch f g = true := by
  induction h with
  | nil => simp [groupHasMatch] at hm
  | @cons d2 d t2 t hc h ih =>
    simp only [groupHasMatch, List.any_cons, Bool.or_eq_true] at hm ⊢
    rcases hm with hm | hm
    · obtain ⟨cf, hcf, hP⟩ := List.any_eq_true.mp hm
      exact Or.inl (List.any_eq_true.mpr ⟨cf, hc.2 cf hcf, hP⟩)
    · exact Or.inr (ih hm)

/-- More fuel preserves a completed ancestor walk. -/
theorem famField_mono_fuel (f : AnalyzedFieldR) (m : ClsMap) :
    ∀ (fuel : Nat) (b : String) (fuel2 : Nat) (r : Bool), fuel ≤ fuel2 →
      findMatchingAncestorField fuel f b m = some r →
      findMatchingAncestorField fuel2 f b m = some r := by
  intro fuel
  induction fuel with
  | zero =>
    intro b fuel2 r _ h
    exact Option.noConfusion h
  | succ fuel ih =>
    intro b fuel2 r hle h
    obtain ⟨fuel3, rfl⟩ : ∃ k, fuel2 = k + 1 := ⟨fuel2 - 1, by omega⟩
    rw [findMatchingAncestorField] at h ⊢
    cases ha : alook m b with
    | none =>
      rw [ha] at h
      exact h
    | some defs =>
      rw [ha] at h
      cases hg : groupHasMatch f defs with
      | true =>
        simp only [hg, if_true] at h ⊢
        exact h
      | false =>
        simp only [hg, Bool.false_eq_true, if_false] at h ⊢
        cases hb : firstBase defs with
        | none =>
          rw [hb] at h
          exact h
        | some b2 =>
          rw [hb] at h
          dsimp only at h ⊢
          by_cases he : b2 = ""
          · rw [if_pos he] at h ⊢
            exact h
          · rw [if_neg he] at h ⊢
            exact ih b2 fuel3 r (by omega) h

/-- An ancestor match found in a pruned map exists in the original map. -/
theorem famField_mono_map (f : AnalyzedFieldR) :
    ∀ (fuel : Nat) (b : String) (m2 m : ClsMap), MapLE m2 m →
      findMatchingAncestorField fuel f b m2 = some true →
      findMatchingAncestorField fuel f b m = some true := by
  intro fuel
  induction fuel with
  | zero =>
    intro b m2 m _ h
    exact Option.noConfusion h
  | succ fuel ih =>
    intro b m2 m hle h
    rw [findMatchingAncestorField] at h ⊢
    cases ha : alook m2 b with
    | none =>
      rw [ha] at h
      injection h with h2
      exact Bool.noConfusion h2
    | some g2 =>
      rw [ha] at h
      obtain ⟨g, hg, hgle⟩ := (MapLE_alook hle b).2 g2 ha
      rw [hg]
      cases hm : groupHasMatch f g with
      | true => simp [hm]
      | false =>
        have hm2 : groupHasMatch f g2 = false := by
          cases hx : groupHasMatch f g2
          · rfl
          · rw [GroupLE_groupHasMatch hgle f hx] at hm
            exact Bool.noConfusion hm
        simp only [hm, hm2, Bool.false_eq_true, if_false] at h ⊢
        rw [GroupLE_firstBase hgle] at h
        cases hb : firstBase g with
        | none =>
          rw [hb] at h
          injection h with h2
          exact Bool.noConfusion h2
        | some b2 =>
          rw [hb] at h
          dsimp only at h ⊢
          by_cases he : b2 = ""
          · rw [if_pos he] at h ⊢
            exact h
          · rw [if_neg he] at h ⊢
            exact ih b2 m2 m hle h

/-- `NoMatch` transfers down the pruning order. -/
theorem NoMatch_mono (f : AnalyzedFieldR) (b : String) {m2 m : ClsMap}
    (hle : MapLE m2 m) (h : NoMatch m f b) : NoMatch m2 f b :=
  fun fuel hc => h fuel (famField_mono_map f fuel b m2 m hle hc)

/-- `ClsOK` transfers down the pruning order. -/
theorem ClsOK_mono {cls : AnalyzedClassR} {m2 m : ClsMap}
    (hle : MapLE m2 m) (h : ClsOK cls m) : ClsOK cls m2 :=
  fun ht f hf => NoMatch_mono f _ hle (h ht f hf)

/--
What the seen/toRemove loop collects: nothing already seen, nothing
without a field, and for the first field of each unseen name its
completed ancestor-walk answer.
-/
theorem toRemoveGo_spec (fuel : Nat) (m : ClsMap) (b : String) :
    ∀ (l : List AnalyzedFieldR) (seen tr : List String),
      toRemoveGo fuel m b l seen = some tr →
      (∀ n, hasStr seen n = true → hasStr tr n = false)
      ∧ (∀ n, firstField l n = none → hasStr tr n = false)
      ∧ (∀ f, hasStr seen f.name = false → firstField l f.name = some f →
          ∃ rr, findMatchingAncestorField fuel f b m = some rr
            ∧ hasStr tr f.name = rr)
  | [], seen, tr, h => by
    injection h with h2
    subst h2
    refine ⟨fun n _ => rfl, fun n _ => rfl, fun f _ hf => Option.noConfusion hf⟩
  | g :: rest, seen, tr, h => by
    rw [toRemoveGo] at h
    by_cases hs : hasStr seen g.name = true
    · rw [if_pos hs] at h
      obtain ⟨ihA, ihB, ihC⟩ := toRemoveGo_spec fuel m b rest seen tr h
      refine ⟨ihA, ?_, ?_⟩
      · intro n hn
        simp only [firstField] at hn
        by_cases hgn : g.name = n
        · rw [if_pos hgn] at hn
          exact Option.noConfusion hn
        · rw [if_neg hgn] at hn
          exact ihB n hn
      · intro f hfs hf
        simp only [firstField] at hf
        by_cases hgn : g.name = f.name
        · rw [if_pos hgn] at hf
          rw [hgn] at hs
          rw [hs] at hfs
          exact Bool.noConfusion hfs
        · rw [if_neg hgn] at hf
          exact ihC f hfs hf
    · rw [if_neg hs] at h
      have hsf : hasStr seen g.name = false := by
        cases hx : hasStr seen g.name
        · rfl
        · exact absurd hx hs
      cases hfam : findMatchingAncestorField fuel g b m with
      | none =>
        rw [hfam] at h
        exact Option.noConfusion h
      | some found =>
        rw [hfam] at h
        cases hrec : toRemoveGo fuel m b rest (g.name :: seen) with
        | none =>
          rw [hrec] at h
          exact Option.noConfusion h
        | some tr2 =>
          rw [hrec] at h
          injection h with h2
          subst h2
          obtain ⟨ihA, ihB, ihC⟩ :=
            toRemoveGo_spec fuel m b rest (g.name :: seen) tr2 hrec
          have htr : ∀ n, hasStr (if found then g.name :: tr2 else tr2) n
              = (if n = g.name then found else hasStr tr2 n) := by
            intro n
            by_cases hng : n = g.name
            · rw [if_pos hng]
              have h2 : hasStr tr2 n = false := by
                apply ihA
                rw [hng]
                simp [hasStr]
              cases found with
              | true => simp [hasStr, hng]
              | false => simp [h2]
            · rw [if_neg hng]
              cases found with
              | true => simp [hasStr, hng]
              | false => rfl
          refine ⟨?_, ?_, ?_⟩
          · intro n hn
            rw [htr n]
            have hng : n = g.name → False := fun he => by
              rw [he] at hn
              rw [hn] at hsf
              exact Bool.noConfusion hsf
            rw [if_neg hng]
            apply ihA
            simp only [hasStr]
            rw [if_neg hng]
            exact hn
          · intro n hn
            simp only [firstField] at hn
            by_cases hgn : g.name = n
            · rw [if_pos hgn] at hn
              exact Option.noConfusion hn
            · rw [if_neg hgn] at hn
              rw [htr n]
              rw [if_neg (fun he => hgn he.symm)]
              exact ihB n hn
          · intro f hfsn hf
            simp only [firstField] at hf
            by_cases hgn : g.name = f.name
            · rw [if_pos hgn] at hf
              injection hf with hf2
              subst hf2
              refine ⟨found, hfam, ?_⟩
              rw [htr g.name, if_pos rfl]
            · rw [if_neg hgn] at hf
              have hfs2 : hasStr (g.name :: seen) f.name = false := by
                simp only [hasStr]
                rw [if_neg (fun he => hgn he.symm)]
                exact hfsn
              obtain ⟨rr, hr1, hr2⟩ := ihC f hfs2 hf
              refine ⟨rr, hr1, ?_⟩
              rw [htr f.name]
              rw [if_neg (fun he => hgn he.symm)]
              exact hr2

/-- An index lookup yields a member. -/
theorem listGet_mem {α : Type} :
    ∀ (l : List α) (i : Nat) (a : α), l.get? i = some a → a ∈ l
  | [], _, _, h => Option.noConfusion h
  | x :: rest, 0, a, h => by
    injection h with h2
    exact h2 ▸ List.mem_cons_self x rest
  | x :: rest, i + 1, a, h =>
    List.mem_cons_of_mem x (listGet_mem rest i a h)

/-- A member has an index. -/
theorem listGet_of_mem {α : Type} :
    ∀ (l : List α) (a : α), a ∈ l → ∃ i, l.get? i = some a
  | [], a, h => absurd h (List.not_mem_nil a)
  | x :: rest, a, h => by
    rcases List.mem_cons.mp h with rfl | h2
    · exact ⟨0, rfl⟩
    · obtain ⟨i, hi⟩ := listGet_of_mem rest a h2
      exact ⟨i + 1, hi⟩

/-- A successful index lookup is in bounds. -/
theorem listGet_lt {α : Type} :
    ∀ (l : List α) (i : Nat) (a : α), l.get? i = some a → i < l.length
  | [], _, _, h => Option.noConfusion h
  | _ :: _, 0, _, _ => Nat.succ_pos _
  | _ :: rest, i + 1, a, h => Nat.succ_lt_succ (listGet_lt rest i a h)

/-- Index lookups past a missing index are missing. -/
theorem listGet_none_mono {α : Type} :
    ∀ (l : List α) (i j : Nat), l.get? i = none → i ≤ j → l.get? j = none
  | [], _, _, _, _ => rfl
  | x :: rest, 0, j, h, _ => Option.noConfusion h
  | x :: rest, i + 1, j, h, hle => by
    obtain ⟨j2, rfl⟩ : ∃ k, j = k + 1 := ⟨j - 1, by omega⟩
    exact listGet_none_mono rest i j2 h (by omega)

/-- Reading back a set index. -/
theorem listSet_get_same {α : Type} :
    ∀ (l : List α) (i : Nat) (a b : α),
      l.get? i = some b → (l.set i a).get? i = some a
  | [], _, _, _, h => Option.noConfusion h
  | x :: rest, 0, a, b, _ => rfl
  | x :: rest, i + 1, a, b, h => listSet_get_same rest i a b h

/-- Setting one index leaves the others unchanged. -/
theorem listSet_get_other {α : Type} :
    ∀ (l : List α) (i j : Nat) (a : α), i ≠ j → (l.set i a).get? j = l.get? j
  | [], _, _, _, _ => rfl
  | x :: rest, 0, 0, a, hne => absurd rfl hne
  | x :: rest, 0, j + 1, a, _ => rfl
  | x :: rest, i + 1, 0, a, _ => rfl
  | x :: rest, i + 1, j + 1, a, hne =>
    listSet_get_other rest i j a (fun he => hne (he ▸ rfl))

/-- Filters by pointwise-equal predicates agree. -/
theorem filter_congr_mem {α : Type} (p q : α → Bool) :
    ∀ l : List α, (∀ x ∈ l, p x = q x) → l.filter p = l.filter q
  | [], _ => rfl
  | x :: rest, h => by
    have hx := h x (List.mem_cons_self x rest)
    have hrest := filter_congr_mem p q rest
      (fun y hy => h y (List.mem_cons_of_mem x hy))
    rw [List.filter_cons, List.filter_cons, hx, hrest]

/-- Filters by an everywhere-true predicate keep the list. -/
theorem filter_true_mem {α : Type} (p : α → Bool) :
    ∀ l : List α, (∀ x ∈ l, p x = true) → l.filter p = l
  | [], _ => rfl
  | x :: rest, h => by
    rw [List.filter_cons, if_pos (h x (List.mem_cons_self x rest))]
    rw [filter_true_mem p rest (fun y hy => h y (List.mem_cons_of_mem x hy))]

/--
What one `finalizeClassFields` step does to a class: the `extends` base
is untouched, the fields shrink, and (when the class has a base) the
removed names are exactly the matched ones and every surviving
first-of-its-name field has a completed no-match walk.
-/
theorem fcfClass_spec (fuel : Nat) (S : ClsMap) (cls cls2 : AnalyzedClassR)
    (h : fcfClass fuel S cls = some cls2) :
    cls2.extendsB = cls.extendsB
    ∧ (∀ f ∈ cls2.fields, f ∈ cls.fields)
    ∧ (jsFalsy cls.extendsB = false →
        cls2.fields = cls.fields.filter
          (fun x => !(removedName fuel S cls x.name)))
    ∧ (jsFalsy cls.extendsB = false →
        ∀ f, firstField cls2.fields f.name = some f →
          findMatchingAncestorField fuel f (cls.extendsB.getD "") S
            = some false) := by
  unfold fcfClass at h
  by_cases ht : jsFalsy cls.extendsB = true
  · rw [if_pos ht] at h
    injection h with h2
    subst h2
    refine ⟨rfl, fun f hf => hf, ?_, ?_⟩
    · intro hc
      rw [ht] at hc
      exact Bool.noConfusion hc
    · intro hc
      rw [ht] at hc
      exact Bool.noConfusion hc
  · rw [if_neg ht] at h
    cases htr : toRemoveGo fuel S (cls.extendsB.getD "") cls.fields [] with
    | none =>
      rw [htr] at h
      exact Option.noConfusion h
    | some tr =>
      rw [htr] at h
      obtain ⟨sA, sB, sC⟩ :=
        toRemoveGo_spec fuel S (cls.extendsB.getD "") cls.fields [] tr htr
      dsimp only at h
      have htrmem : ∀ n, hasStr tr n = removedName fuel S cls n := by
        intro n
        cases hff : firstField cls.fields n with
        | none =>
          rw [removedName, hff]
          exact sB n hff
        | some f0 =>
          have hn : f0.name = n := (firstField_mem _ _ _ hff).2
          obtain ⟨rr, hr1, hr2⟩ := sC f0 rfl (by rw [hn]; exact hff)
          rw [removedName, hff]
          dsimp only
          rw [hr1]
          rw [hn] at hr2
          exact hr2
      by_cases hemp : tr = []
      · rw [if_pos hemp] at h
        injection h with h2
        subst h2
        refine ⟨rfl, fun f hf => hf, ?_, ?_⟩
        · intro _
          refine (filter_true_mem _ cls.fields ?_).symm
          intro x hx
          rw [← htrmem x.name, hemp]
          rfl
        · intro _ f hf
          obtain ⟨rr, hr1, hr2⟩ := sC f rfl hf
          rw [hemp] at hr2
          have : rr = false := hr2.symm
          rw [this] at hr1
          exact hr1
      · rw [if_neg hemp] at h
        injection h with h2
        subst h2
        dsimp only
        refine ⟨rfl, ?_, ?_, ?_⟩
        · intro f hf
          exact List.mem_of_mem_filter hf
        · intro _
          refine filter_congr_mem _ _ cls.fields ?_
          intro x _
          rw [htrmem x.name]
        · intro _ f hf
          have hfmem := (firstField_mem _ _ _ hf).1
          have hpred := List.of_mem_filter hfmem
          have hfalse : hasStr tr f.name = false := by
            cases hx : hasStr tr f.name
            · rfl
            · rw [hx] at hpred
              exact Bool.noConfusion hpred
          have hffo : firstField cls.fields f.name = some f := by
            rw [← firstField_filter (fun x => !(hasStr tr x.name))
              cls.fields f.name ?_]
            · exact hf
            · intro x _ hxn
              dsimp only
              rw [hxn, hfalse]
              rfl
          obtain ⟨rr, hr1, hr2⟩ := sC f rfl hffo
          rw [hfalse] at hr2
          rw [← hr2] at hr1
          exact hr1

/-- On a pruned class, `finalizeClassFields` removes nothing. -/
theorem fcfClass_fixed (fuel : Nat) (m : ClsMap) (cls cls2 : AnalyzedClassR)
    (hok : ClsOK cls m) (h : fcfClass fuel m cls = some cls2) : cls2 = cls := by
  unfold fcfClass at h
  by_cases ht : jsFalsy cls.extendsB = true
  · rw [if_pos ht] at h
    injection h with h2
    exact h2.symm
  · have htf : jsFalsy cls.extendsB = false := by
      cases hx : jsFalsy cls.extendsB
      · rfl
      · exact absurd hx ht
    rw [if_neg ht] at h
    cases htr : toRemoveGo fuel m (cls.extendsB.getD "") cls.fields [] with
    | none =>
      rw [htr] at h
      exact Option.noConfusion h
    | some tr =>
      rw [htr] at h
      obtain ⟨sA, sB, sC⟩ :=
        toRemoveGo_spec fuel m (cls.extendsB.getD "") cls.fields [] tr htr
      have hnil : tr = [] := by
        apply hasStr_all_false
        intro n
        cases hff : firstField cls.fields n with
        | none => exact sB n hff
        | some f0 =>
          have hn : f0.name = n := (firstField_mem _ _ _ hff).2
          obtain ⟨rr, hr1, hr2⟩ := sC f0 rfl (by rw [hn]; exact hff)
          have hnm := hok htf f0 (by rw [hn]; exact hff)
          have hrrf : rr = false := by
            cases rr
            · rfl
            · exact absurd hr1 (hnm fuel)
          rw [← hn, hr2, hrrf]
      dsimp only at h
      rw [if_pos hnil] at h
      injection h with h2
      exact h2.symm

/-- Pruned groups have equal length. -/
theorem GroupLE_length {g2 g : List AnalyzedClassR} (h : GroupLE g2 g) :
    g2.length = g.length :=
  List.Forall₂.length_eq h

/--
After pruning part of the group under `k`: the map shrank, other keys
are untouched, unprocessed indices of the group are untouched, and
every processed class is pruned with respect to the final state.
-/
theorem fcfGroupGo_post (fuel : Nat) (k : String) :
    ∀ (r i : Nat) (m m2 : ClsMap), fcfGroupGo fuel k m i r = some m2 →
      MapLE m2 m
      ∧ (∀ k2, k2 ≠ k → alook m2 k2 = alook m k2)
      ∧ (∀ g2 g j, alook m2 k = some g2 → alook m k = some g →
          (j < i ∨ i + r ≤ j) → g2.get? j = g.get? j)
      ∧ (∀ g2 cls j, i ≤ j → j < i + r → alook m2 k = some g2 →
          g2.get? j = some cls → ClsOK cls m2)
  | 0, i, m, m2, h => by
    injection h with h2
    subst h2
    refine ⟨MapLE_refl _, fun _ _ => rfl, ?_, ?_⟩
    · intro g2 g j hg2 hg hj
      rw [hg2] at hg
      injection hg with h3
      rw [h3]
    · intro g2 cls j hij hjr hg2 hgj
      exact absurd hjr (by omega)
  | r + 1, i, m, m2, h => by
    rw [fcfGroupGo] at h
    cases ha : alook m k with
    | none =>
      rw [ha] at h
      injection h with h2
      subst h2
      refine ⟨MapLE_refl _, fun _ _ => rfl, ?_, ?_⟩
      · intro g2 g j hg2 hg hj
        exact Option.noConfusion hg
      · intro g2 cls j hij hjr hg2 hgj
        rw [ha] at hg2
        exact Option.noConfusion hg2
    | some g =>
      rw [ha] at h
      dsimp only at h
      cases hgi : g.get? i with
      | none =>
        rw [hgi] at h
        injection h with h2
        subst h2
        refine ⟨MapLE_refl _, fun _ _ => rfl, ?_, ?_⟩
        · intro g2 g3 j hg2 hg3 hj
          injection hg3 with h3
          rw [hg2] at ha
          injection ha with h4
          rw [h4, h3]
        · intro g2 cls j hij hjr hg2 hgj
          rw [ha] at hg2
          injection hg2 with h3
          subst h3
          rw [listGet_none_mono g i j hgi hij] at hgj
          exact Option.noConfusion hgj
      | some cls0 =>
        rw [hgi] at h
        dsimp only at h
        cases hc : fcfClass fuel m cls0 with
        | none =>
          rw [hc] at h
          exact Option.noConfusion h
        | some cls2 =>
          rw [hc] at h
          dsimp only at h
          obtain ⟨ih1, ih2, ih3, ih4⟩ :=
            fcfGroupGo_post fuel k r (i + 1) (setCls m k (g.set i cls2)) m2 h
          have spec := fcfClass_spec fuel m cls0 cls2 hc
          have hLE1 : MapLE (setCls m k (g.set i cls2)) m :=
            MapLE_setCls m k g (g.set i cls2) ha
              (GroupLE_set g i cls0 cls2 hgi ⟨spec.1, spec.2.1⟩)
          have halm1 : alook (setCls m k (g.set i cls2)) k
              = some (g.set i cls2) :=
            alook_setCls_self m k g (g.set i cls2) ha
          have hMle : MapLE m2 m := MapLE_trans ih1 hLE1
          refine ⟨hMle, ?_, ?_, ?_⟩
          · intro k2 hk2
            rw [ih2 k2 hk2]
            exact alook_setCls_ne m k (g.set i cls2) k2 hk2
          · intro g2 g3 j hg2 hg3 hj
            injection hg3 with h3
            subst h3
            have hstep := ih3 g2 (g.set i cls2) j hg2 halm1 (by omega)
            rw [hstep]
            exact listSet_get_other g i j cls2 (by omega)
          · intro g2 cls j hij hjr hg2 hgj
            by_cases hji : j = i
            · subst hji
              have hstep := ih3 g2 (g.set j cls2) j hg2 halm1 (Or.inl (by omega))
              rw [listSet_get_same g j cls2 cls0 hgi] at hstep
              rw [hstep] at hgj
              injection hgj with h4
              subst h4
              intro htf2 f hf
              have hext := spec.1
              have htf : jsFalsy cls0.extendsB = false := by
                rw [← hext]
                exact htf2
              have hfam := spec.2.2.2 htf f hf
              have hb : cls2.extendsB.getD "" = cls0.extendsB.getD "" := by
                rw [hext]
              rw [hb]
              refine NoMatch_mono f _ hMle ?_
              intro fuel2 hcon
              have t1 := famField_mono_fuel f m fuel (cls0.extendsB.getD "")
                (fuel + fuel2) false (by omega) hfam
              have t2 := famField_mono_fuel f m fuel2 (cls0.extendsB.getD "")
                (fuel + fuel2) true (by omega) hcon
              rw [t1] at t2
              exact Bool.noConfusion (Option.some.inj t2)
            · exact ih4 g2 cls j (by omega) (by omega) hg2 hgj

/--
After a full pruning pass: the map shrank, untouched keys kept their
groups, and every class of a processed group is pruned with respect to
the final state.
-/
theorem fcfPassGo_post (fuel : Nat) :
    ∀ (ks : List String) (m m2 : ClsMap), fcfPassGo fuel ks m = some m2 →
      MapLE m2 m
      ∧ (∀ k, k ∉ ks → alook m2 k = alook m k)
      ∧ (∀ k, k ∈ ks → ∀ g cls, alook m2 k = some g → cls ∈ g →
          ClsOK cls m2)
  | [], m, m2, h => by
    injection h with h2
    subst h2
    exact ⟨MapLE_refl _, fun _ _ => rfl,
      fun k hk => absurd hk (List.not_mem_nil k)⟩
  | k :: rest, m, m2, h => by
    rw [fcfPassGo] at h
    cases hf : finalizeClassFields fuel k m with
    | none =>
      rw [hf] at h
      exact Option.noConfusion h
    | some m1 =>
      rw [hf] at h
      dsimp only at h
      unfold finalizeClassFields at hf
      obtain ⟨g1, g2c, g3, g4⟩ :=
        fcfGroupGo_post fuel k (((alook m k).getD []).length) 0 m m1 hf
      obtain ⟨ih1, ih2, ih3⟩ := fcfPassGo_post fuel rest m1 m2 h
      refine ⟨MapLE_trans ih1 g1, ?_, ?_⟩
      · intro k2 hk2
        have hne : k2 ≠ k := fun he => hk2 (he ▸ List.mem_cons_self k rest)
        have hnr : k2 ∉ rest := fun hr => hk2 (List.mem_cons_of_mem k hr)
        rw [ih2 k2 hnr]
        exact g2c k2 hne
      · intro k2 hk2 g cls hg hmem
        rcases List.mem_cons.mp hk2 with heq | hk2r
        · subst heq
          by_cases hr : k2 ∈ rest
          · exact ih3 k2 hr g cls hg hmem
          · have hal : alook m2 k2 = alook m1 k2 := ih2 k2 hr
            have hg1 : alook m1 k2 = some g := by
              rw [← hal]
              exact hg
            obtain ⟨j, hj⟩ := listGet_of_mem g cls hmem
            obtain ⟨g0, hg0, hle⟩ := (MapLE_alook g1 k2).2 g hg1
            have hjl := listGet_lt g j cls hj
            have hlen : g.length = g0.length := GroupLE_length hle
            have hjlt : j < ((alook m k2).getD []).length := by
              rw [hg0]
              show j < g0.length
              omega
            have hok := g4 g cls j (Nat.zero_le j) (by omega) hg1 hj
            exact ClsOK_mono ih1 hok
        · exact ih3 k2 hk2r g cls hg hmem

/-- On a fully pruned group, the pruning step is the identity. -/
theorem fcfGroupGo_fixed (fuel : Nat) (k : String) :
    ∀ (r i : Nat) (m m2 : ClsMap),
      (∀ g cls, alook m k = some g → cls ∈ g → ClsOK cls m) →
      fcfGroupGo fuel k m i r = some m2 → m2 = m
  | 0, i, m, m2, _, h => by
    injection h with h2
    exact h2.symm
  | r + 1, i, m, m2, hok, h => by
    rw [fcfGroupGo] at h
    cases ha : alook m k with
    | none =>
      rw [ha] at h
      injection h with h2
      exact h2.symm
    | some g =>
      rw [ha] at h
      dsimp only at h
      cases hgi : g.get? i with
      | none =>
        rw [hgi] at h
        injection h with h2
        exact h2.symm
      | some cls0 =>
        rw [hgi] at h
        dsimp only at h
        cases hc : fcfClass fuel m cls0 with
        | none =>
          rw [hc] at h
          exact Option.noConfusion h
        | some cls2 =>
          rw [hc] at h
          dsimp only at h
          have hmem : cls0 ∈ g := listGet_mem g i cls0 hgi
          have hfix := fcfClass_fixed fuel m cls0 cls2 (hok g cls0 ha hmem) hc
          rw [hfix] at h
          rw [listSet_self g i cls0 hgi] at h
          rw [setCls_self m k g ha] at h
          exact fcfGroupGo_fixed fuel k r (i + 1) m m2 hok h

/-- On a fully pruned map, the whole pass is the identity. -/
theorem fcfPassGo_fixed (fuel : Nat) :
    ∀ (ks : List String) (m m2 : ClsMap),
      (∀ k g cls, alook m k = some g → cls ∈ g → ClsOK cls m) →
      fcfPassGo fuel ks m = some m2 → m2 = m
  | [], m, m2, _, h => by
    injection h with h2
    exact h2.symm
  | k :: rest, m, m2, hok, h => by
    rw [fcfPassGo] at h
    cases hf : finalizeClassFields fuel k m with
    | none =>
      rw [hf] at h
      exact Option.noConfusion h
    | some m1 =>
      rw [hf] at h
      dsimp only at h
      unfold finalizeClassFields at hf
      have h1 : m1 = m :=
        fcfGroupGo_fixed fuel k (((alook m k).getD []).length) 0 m m1
          (fun g cls => hok k g cls) hf
      rw [h1] at h
      exact fcfPassGo_fixed fuel rest m m2 hok h

/--
C9.  A `finalizeClassFields` pass prunes exactly the fields whose
first-of-its-name field has a name-and-exact-type-set match along the
ancestor chain, and the pass is idempotent: a second full pass over the
class map produced by a first pass returns it unchanged.
-/
theorem c9_finalize_class_fields_idempotent (F1 F2 : Nat) (m m1 m2 : ClsMap)
    (h1 : fcfPass F1 m = some m1) (h2 : fcfPass F2 m1 = some m2) :
    m2 = m1
    ∧ (∀ fuel S cls cls2, fcfClass fuel S cls = some cls2 →
        jsFalsy cls.extendsB = false →
        cls2.fields = cls.fields.filter
          (fun x => !(removedName fuel S cls x.name))) := by
  constructor
  · unfold fcfPass at h1 h2
    obtain ⟨p1, p2, p3⟩ := fcfPassGo_post F1 (m.map Prod.fst) m m1 h1
    have hGood : ∀ k g cls, alook m1 k = some g → cls ∈ g → ClsOK cls m1 := by
      intro k g cls ha hm
      obtain ⟨g0, hg0, _⟩ := (MapLE_alook p1 k).2 g ha
      exact p3 k (alook_mem_keys m k g0 hg0) g cls ha hm
    exact fcfPassGo_fixed F2 (m1.map Prod.fst) m1 m2 hGood h2
  · intro fuel S cls cls2 h ht
    exact (fcfClass_spec fuel S cls cls2 h).2.2.1 ht

/--
Witness for C9: pruning the example map removes `B`'s inherited
`x : number` and keeps `y : string`, and a second pass — related to the
first by the claim theorem — leaves the pruned map unchanged.
-/
theorem c9_witness :
    fcfPass 5 cMapEx = some cMapEx1 ∧ fcfPass 7 cMapEx1 = some cMapEx1 := by
  have h1 : fcfPass 5 cMapEx = some cMapEx1 := rfl
  have h2 : fcfPass 7 cMapEx1 = some cMapEx1 := rfl
  have h3 := c9_finalize_class_fields_idempotent 5 7 cMapEx cMapEx1 cMapEx1 h1 h2
  exact ⟨h1, h3.1 ▸ h2⟩

/--
C1 counterexample: the unmapped-reference branch of `finalizeExpression`
returns the internal ID `@instance` unchanged.  An `@`-prefixed
reference ID that carries no bracketed name and does not start with
`@self` is emitted as-is, so `finalizeExpression` does not rewrite every
`@`-prefixed reference ID.
-/
theorem c1_counterexample :
    finalizeRefId "@instance" = "@instance"
    ∧ strStarts "@instance" "@" = true := by
  exact ⟨rfl, by decide⟩

/--
C1 (amended).  `finalizeTypes` emits no `@`-prefixed type string
provided every table class name stored in the context is free of the
`@` prefix: explicit unknowns collapse to at most `nil`, `true` and
`false` collapse to `boolean`, `@table` IDs become their class name or
`table`, `@function` IDs become `function`, every other `@` ID is
dropped, and more than two class types are replaced by `table`.
`finalizeExpression` rewrites only bracketed reference IDs (keeping the
bracketed text) and `@self...` IDs (to `self`); other reference IDs pass
through unchanged.
-/
theorem c1_finalize_types_no_internal_ids (ctx : Ctx) (types : TySet)
    (hcn : ∀ id ti, alook ctx.tables id = some ti →
      ∀ cn, ti.className = some cn → strStarts cn "@" = false) :
    (∀ t ∈ finalizeTypes ctx types, strStarts t "@" = false)
    ∧ (hasStr types "unknown" = true →
        finalizeTypes ctx types = if hasStr types "nil" then ["nil"] else [])
    ∧ (∀ t, t = "true" ∨ t = "false" → finalizeOneType ctx t = some "boolean")
    ∧ (∀ t, strStarts t "@table" = true →
        finalizeOneType ctx t
          = (if (getTableInfo ctx t).emitAsTable then some "table"
             else some ((getTableInfo ctx t).className.getD "table")))
    ∧ (∀ t, strStarts t "@function" = true → strStarts t "@table" = false →
        finalizeOneType ctx t = some "function")
    ∧ (∀ t, strStarts t "@" = true → strStarts t "@table" = false →
        strStarts t "@function" = false → finalizeOneType ctx t = none)
    ∧ (hasStr types "unknown" = false →
        2 < ((dedupT (types.filterMap (finalizeOneType ctx))).filter
            (fun t => !(isPrimitiveTy t))).length →
        finalizeTypes ctx types
          = addT ((dedupT (types.filterMap (finalizeOneType ctx))).filter
              (fun t => isPrimitiveTy t)) "table")
    ∧ (∀ id start, idxOfBracket id.toList = some start →
        finalizeRefId id = String.mk ((id.toList.drop (start + 1)).dropLast))
    ∧ (∀ id, idxOfBracket id.toList = none → strStarts id "@self" = true →
        finalizeRefId id = "self")
    ∧ (∀ id, idxOfBracket id.toList = none → strStarts id "@self" = false →
        finalizeRefId id = id) := by
  have honetype : ∀ s t, finalizeOneType ctx s = some t →
      strStarts t "@" = false := by
    intro s t hmap
    unfold finalizeOneType at hmap
    by_cases h1 : s = "true" ∨ s = "false"
    · rw [if_pos h1] at hmap
      injection hmap with h2
      subst h2
      decide
    · rw [if_neg h1] at hmap
      by_cases h2 : strStarts s "@table" = true
      · rw [if_pos h2] at hmap
        by_cases h3 : (getTableInfo ctx s).emitAsTable = true
        · rw [if_pos h3] at hmap
          injection hmap with h4
          subst h4
          decide
        · rw [if_neg h3] at hmap
          injection hmap with h4
          subst h4
          cases halo : alook ctx.tables s with
          | none =>
            unfold getTableInfo
            rw [halo]
            decide
          | some ti =>
            unfold getTableInfo
            rw [halo]
            cases hcl : ti.className with
            | none =>
              dsimp only [Option.getD]
              rw [hcl]
              decide
            | some cn =>
              dsimp only [Option.getD]
              rw [hcl]
              exact hcn s ti halo cn hcl
      · rw [if_neg h2] at hmap
        by_cases h3 : strStarts s "@function" = true
        · rw [if_pos h3] at hmap
          injection hmap with h4
          subst h4
          decide
        · rw [if_neg h3] at hmap
          by_cases h4 : strStarts s "@" = true
          · rw [if_pos h4] at hmap
            exact Option.noConfusion hmap
          · rw [if_neg h4] at hmap
            injection hmap with h5
            subst h5
            cases hx : strStarts s "@"
            · rfl
            · exact absurd hx h4
  refine ⟨?_, ?_, ?_, ?_, ?_, ?_, ?_, ?_, ?_, ?_⟩
  · intro t ht
    unfold finalizeTypes at ht
    by_cases hu : hasStr types "unknown" = true
    · rw [if_pos hu] at ht
      by_cases hn : hasStr types "nil" = true
      · rw [if_pos hn] at ht
        rcases List.mem_singleton.mp ht with rfl
        decide
      · rw [if_neg hn] at ht
        exact absurd ht (List.not_mem_nil t)
    · rw [if_neg hu] at ht
      dsimp only at ht
      by_cases hc : 2 < ((dedupT (types.filterMap (finalizeOneType ctx))).filter
          (fun t => !(isPrimitiveTy t))).length
      · rw [if_pos hc] at ht
        rcases mem_addT.mp ht with hmem | rfl
        · have hp := List.of_mem_filter hmem
          simp only [isPrimitiveTy, Bool.or_eq_true, decide_eq_true_eq] at hp
          rcases hp with ((((rfl | rfl) | rfl) | rfl) | rfl) | rfl <;> decide
        · decide
      · rw [if_neg hc] at ht
        have ht2 := (mem_dedupT _ t).mp ht
        obtain ⟨s, _, hmap⟩ := List.mem_filterMap.mp ht2
        exact honetype s t hmap
  · intro hu
    unfold finalizeTypes
    rw [if_pos hu]
  · intro t h1
    unfold finalizeOneType
    rw [if_pos h1]
  · intro t h2
    have h1 : ¬(t = "true" ∨ t = "false") := by
      rintro (rfl | rfl) <;> revert h2 <;> decide
    unfold finalizeOneType
    rw [if_neg h1, if_pos h2]
  · intro t h3 h2
    have h1 : ¬(t = "true" ∨ t = "false") := by
      rintro (rfl | rfl) <;> revert h3 <;> decide
    unfold finalizeOneType
    rw [if_neg h1, if_neg (by rw [h2]; exact Bool.noConfusion), if_pos h3]
  · intro t h4 h2 h3
    have h1 : ¬(t = "true" ∨ t = "false") := by
      rintro (rfl | rfl) <;> revert h4 <;> decide
    unfold finalizeOneType
    rw [if_neg h1, if_neg (by rw [h2]; exact Bool.noConfusion),
      if_neg (by rw [h3]; exact Bool.noConfusion), if_pos h4]
  · intro hu hc
    unfold finalizeTypes
    rw [if_neg (by rw [hu]; exact Bool.noConfusion)]
    dsimp only
    rw [if_pos hc]
  · intro id start hb
    unfold finalizeRefId
    rw [hb]
  · intro id hb hself
    unfold finalizeRefId
    rw [hb]
    dsimp only
    rw [if_pos hself]
  · intro id hb hself
    unfold finalizeRefId
    rw [hb]
    dsimp only
    rw [if_neg (by rw [hself]; exact Bool.noConfusion)]

/--
Witness for C1: with an empty context and a types set holding `true`, a
`@function` ID, the bare `@instance` marker and `string`, no emitted
type starts with `@`; the concrete result is
`boolean, function, string`.
-/
theorem c1_witness :
    (∀ t ∈ finalizeTypes {} ["true", "@function(1)", "@instance", "string"],
        strStarts t "@" = false)
    ∧ finalizeTypes {} ["true", "@function(1)", "@instance", "string"]
        = ["boolean", "function", "string"] := by
  have h := c1_finalize_types_no_internal_ids {}
    ["true", "@function(1)", "@instance", "string"]
    (fun id ti hti => Option.noConfusion hti)
  exact ⟨h.1, rfl⟩

end PZ
